import Mathlib

/-!
Verification development for `pesto.py`, a dependency resolver for Bazel
external repositories.  The Python source is shallowly embedded below:
pure classes become structures, methods become functions, and the runtime
errors the interpreter can raise (TypeError, AttributeError, KeyError,
IndexError, and the script's own exception classes) are made explicit as an
error type threaded through `Except`.

The program runs under Python 2, and two of its semantic quirks matter:
 * comparing an `int` with a `str` never fails - every int is smaller than
   every str - and strings compare lexicographically byte by byte;
 * `functools.total_ordering` derives `__lt__`/`__le__`/`__ge__` from
   `__eq__` and `__gt__` as `lt = not (gt or eq)`, `le = not gt`,
   `ge = gt or eq`.
Both are reproduced faithfully.
-/

/-- Python 2 byte-wise lexicographic `<` on strings (as char lists; the
strings compared here are ASCII, coming from the `[a-z]`/`\d` groups of the
component regex, so code points and bytes agree). -/
def charsLt : List Char → List Char → Bool
  | [], [] => false
  | [], _ :: _ => true
  | _ :: _, [] => false
  | a :: as, b :: bs => if a = b then charsLt as bs else decide (a.toNat < b.toNat)

/-- Python 2 `a > b` on strings. -/
def strGt (a b : String) : Bool := charsLt b.toList a.toList

/-- One dot-separated segment of a version string.  Mirrors
`DottedVersionComponent.__init__`, which matches `^(\d+)(?:([a-z]+)(\d*))?$`
and stores `_first_number = int(group(1))`, `_string = group(2)` (None or a
nonempty lowercase string) and `_second_number = group(3) or 0`.  NOTE:
`group(3)` is a *string*; the `or 0` only replaces a missing or empty group
by the *int* 0, so `_second_number` is either the int 0 (here `none`) or a
nonempty digit string (here `some s`) - it is never converted to an int. -/
structure DottedVersionComponent where
  first_number : Nat
  string : Option String
  second_number : Option String
deriving DecidableEq

/-- Python 2 `a > b` on `_second_number` values: digit string vs digit
string compares lexicographically, and any str is greater than the int 0. -/
def snGt : Option String → Option String → Bool
  | some a, some b => strGt a b
  | some _, none => true
  | none, some _ => false
  | none, none => false

/-- Python 2 `a > b` on `_string` values as reached in
`DottedVersionComponent.__gt__`: that line runs only when the two suffixes
differ and are both non-None, but we give the `none` cases their values
from the two preceding `if` guards of `__gt__`. -/
def sufGt : Option String → Option String → Bool
  | some _, none => false
  | none, some _ => true
  | some s, some t => strGt s t
  | none, none => false

/-- Embeds `DottedVersionComponent.__gt__`: order by `_first_number`; on a tie, if
the `_string` suffixes are equal order by `_second_number`; a component
without a suffix beats one with a suffix; otherwise compare the suffixes. -/
def DottedVersionComponent.gt (a b : DottedVersionComponent) : Bool :=
  if a.first_number ≠ b.first_number then decide (a.first_number > b.first_number)
  else if a.string = b.string then snGt a.second_number b.second_number
  else sufGt a.string b.string

def natOfDigits (l : List Char) : Nat := l.foldl (fun acc c => acc * 10 + (c.toNat - 48)) 0

/-- The component regex `^(\d+)(?:([a-z]+)(\d*))?$` as a parser: a nonempty
run of digits, optionally followed by a nonempty run of lowercase letters
and a possibly empty run of digits, consuming the whole segment.  A failed
match makes the Python constructor crash (AttributeError on `None.group`);
that is `none` here. -/
def DottedVersionComponent.parse (s : String) : Option DottedVersionComponent :=
  let cs := s.toList
  let d1 := cs.takeWhile Char.isDigit
  let r1 := cs.dropWhile Char.isDigit
  if d1.isEmpty then none
  else if r1.isEmpty then some ⟨natOfDigits d1, none, none⟩
  else
    let ls := r1.takeWhile fun c => decide ('a' ≤ c) && decide (c ≤ 'z')
    let r2 := r1.dropWhile fun c => decide ('a' ≤ c) && decide (c ≤ 'z')
    if ls.isEmpty then none
    else
      let d2 := r2.takeWhile Char.isDigit
      let r3 := r2.dropWhile Char.isDigit
      if r3.isEmpty then
        some ⟨natOfDigits d1, some (String.mk ls),
              if d2.isEmpty then none else some (String.mk d2)⟩
      else none

/-- Embeds `ZERO_COMPONENT = DottedVersionComponent("0")`. -/
def ZERO_COMPONENT : DottedVersionComponent := ⟨0, none, none⟩

/-- Embeds `DottedVersionComponent.next`: with a (truthy, i.e. nonempty) letter
suffix the suffix is dropped; otherwise the numeric part is incremented.
(The Python builds the result by parsing `str(n)`, which yields exactly
these fields.) -/
def DottedVersionComponent.next (c : DottedVersionComponent) : DottedVersionComponent :=
  match c.string with
  | some s => if s.isEmpty then ⟨c.first_number + 1, none, none⟩ else ⟨c.first_number, none, none⟩
  | none => ⟨c.first_number + 1, none, none⟩

/-- The canonicalization loop of `DottedVersion.__init__`: pop trailing
components equal to `ZERO_COMPONENT`. -/
def stripTrailingZeros : List DottedVersionComponent → List DottedVersionComponent
  | [] => []
  | x :: xs =>
    match stripTrailingZeros xs with
    | [] => if x = ZERO_COMPONENT then [] else [x]
    | ys => x :: ys

/-- Embeds `DottedVersion`: the canonicalized component list.  `__eq__` compares
lengths and then components, which on these structures is exactly
structural equality of the lists. -/
structure DottedVersion where
  components : List DottedVersionComponent
deriving DecidableEq

/-- Embeds `version_str.split(".")` over char lists (Python's `str.split` with an
explicit separator: the empty string yields `[""]`, separators at the ends
yield empty segments). -/
def splitOnDot : List Char → List (List Char)
  | [] => [[]]
  | c :: cs =>
    let r := splitOnDot cs
    if c = '.' then [] :: r
    else match r with
      | [] => [[c]]
      | g :: gs => (c :: g) :: gs

/-- Embeds `DottedVersion.__init__`: split on ".", parse every segment, strip
trailing zero components.  A segment the regex rejects crashes the Python
constructor; that is `none`. -/
def DottedVersion.parse (s : String) : Option DottedVersion :=
  ((splitOnDot s.toList).mapM (fun g => DottedVersionComponent.parse (String.mk g))).map
    fun cs => ⟨stripTrailingZeros cs⟩

/-- Remaining loop iterations of `DottedVersion.__gt__` once the right
list is exhausted: the left components are compared against the
`ZERO_COMPONENT` padding, first difference decides. -/
def gtZeros : List DottedVersionComponent → Bool
  | [] => false
  | x :: xs => if x = ZERO_COMPONENT then gtZeros xs else x.gt ZERO_COMPONENT

/-- Remaining loop iterations of `DottedVersion.__gt__` once the left list
is exhausted: the padding is compared against the right components. -/
def zerosGt : List DottedVersionComponent → Bool
  | [] => false
  | y :: ys => if ZERO_COMPONENT = y then zerosGt ys else ZERO_COMPONENT.gt y

/-- The index loop of `DottedVersion.__gt__`: both lists are walked in
lockstep up to the longer length, the exhausted side is padded with
`ZERO_COMPONENT`, the first differing component decides, and full
agreement yields False. -/
def vgtList : List DottedVersionComponent → List DottedVersionComponent → Bool
  | [], ys => zerosGt ys
  | x :: xs, [] => gtZeros (x :: xs)
  | x :: xs, y :: ys => if x = y then vgtList xs ys else x.gt y

def DottedVersion.gt (a b : DottedVersion) : Bool := vgtList a.components b.components

/-- Embeds `functools.total_ordering` on `DottedVersion`: `lt = not (gt or eq)`. -/
def DottedVersion.lt (a b : DottedVersion) : Bool := !a.gt b && !decide (a = b)

/-- Embeds `functools.total_ordering` on `DottedVersion`: `le = not gt`. -/
def DottedVersion.le (a b : DottedVersion) : Bool := !a.gt b

/-- Embeds `DottedVersion.nextMajor`: `DottedVersion(str(components[0].next))`.
On the (canonically empty) zero version `components[0]` raises IndexError,
modelled as `none`.  Re-parsing `str` of a parsed component reproduces its
fields, so the result is the canonicalized one-component list. -/
def DottedVersion.nextMajor (v : DottedVersion) : Option DottedVersion :=
  match v.components with
  | [] => none
  | c :: _ => some ⟨stripTrailingZeros [c.next]⟩

/-- Embeds `DottedVersion.nextMinor`: keep `components[0]`, follow it with
`components[1].next` (or `ZERO_COMPONENT.next` when there is no second
component), drop the rest; IndexError on the empty component list. -/
def DottedVersion.nextMinor (v : DottedVersion) : Option DottedVersion :=
  match v.components with
  | [] => none
  | c0 :: rest =>
    let second := match rest with
      | [] => ZERO_COMPONENT.next
      | c1 :: _ => c1.next
    some ⟨stripTrailingZeros [c0, second]⟩

/-- Every component equals `ZERO_COMPONENT`. -/
def allZeros : List DottedVersionComponent → Bool
  | [] => true
  | x :: xs => decide (x = ZERO_COMPONENT) && allZeros xs

/-- Padded component-wise equality: the semantic "compare up to the longer
length treating a missing component as the zero component" equivalence. -/
def veqPadded : List DottedVersionComponent → List DottedVersionComponent → Bool
  | [], ys => allZeros ys
  | x :: xs, [] => allZeros (x :: xs)
  | x :: xs, y :: ys => decide (x = y) && veqPadded xs ys

-- quick sanity checks of the embedding against the spec's examples
example : DottedVersion.parse "1.0.0" = DottedVersion.parse "1" := by decide
example : (DottedVersion.parse "1.9").map (fun a => a.lt ⟨[⟨1, none, none⟩, ⟨10, none, none⟩]⟩)
    = some true := by decide
example : DottedVersionComponent.parse "2beta3" = some ⟨2, some "beta", some "3"⟩ := by decide
example : DottedVersionComponent.parse "2beta" = some ⟨2, some "beta", none⟩ := by decide
example : DottedVersionComponent.parse "2x3y" = none := by decide
example : (DottedVersion.parse "1.2.3").bind DottedVersion.nextMinor
    = some ⟨[⟨1, none, none⟩, ⟨3, none, none⟩]⟩ := by decide
example : (DottedVersion.parse "1").bind DottedVersion.nextMinor
    = some ⟨[⟨1, none, none⟩, ⟨1, none, none⟩]⟩ := by decide
example : (DottedVersion.parse "1.2.3").bind DottedVersion.nextMajor
    = some ⟨[⟨2, none, none⟩]⟩ := by decide
-- Python 2 lexicographic comparison of the stored digit strings:
example : DottedVersionComponent.gt ⟨2, some "beta", some "2"⟩ ⟨2, some "beta", some "10"⟩
    = true := by decide

/-! ### Order lemmas for the embedded comparisons

The Python 2 comparisons above form a strict total order on component
values and a strict weak order (total up to `veqPadded`) on component
lists; the resolver's sorting and the range-intersection folds depend on
these facts. -/

theorem char_toNat_ne {a b : Char} (h : a ≠ b) : a.toNat ≠ b.toNat := by
  intro hh
  exact h (Char.eq_of_val_eq (UInt32.ext hh))

theorem charsLt_irrefl : ∀ l, charsLt l l = false
  | [] => rfl
  | a :: as => by simp [charsLt, charsLt_irrefl as]

theorem charsLt_asymm : ∀ l m, charsLt l m = true → charsLt m l = false
  | [], [], h => by simp [charsLt] at h
  | [], _ :: _, _ => rfl
  | _ :: _, [], h => by simp [charsLt] at h
  | a :: as, b :: bs, h => by
    by_cases hab : a = b
    · subst hab
      simpa [charsLt] using charsLt_asymm as bs (by simpa [charsLt] using h)
    · have h1 : a.toNat < b.toNat := by simpa [charsLt, hab] using h
      have hba : ¬b = a := fun hh => hab hh.symm
      simp only [charsLt, if_neg hba, decide_eq_false_iff_not]
      omega

theorem charsLt_trans : ∀ l m n, charsLt l m = true → charsLt m n = true → charsLt l n = true
  | [], [], _, h1, _ => by simp [charsLt] at h1
  | [], _ :: _, [], _, h2 => by simp [charsLt] at h2
  | [], _ :: _, _ :: _, _, _ => rfl
  | _ :: _, [], _, h1, _ => by simp [charsLt] at h1
  | _ :: _, _ :: _, [], _, h2 => by simp [charsLt] at h2
  | a :: as, b :: bs, c :: cs, h1, h2 => by
    by_cases hab : a = b <;> by_cases hbc : b = c
    · subst hab; subst hbc
      simpa [charsLt] using
        charsLt_trans as bs cs (by simpa [charsLt] using h1) (by simpa [charsLt] using h2)
    · subst hab
      have h2' : a.toNat < c.toNat := by simpa [charsLt, hbc] using h2
      simp only [charsLt, if_neg hbc, decide_eq_true_eq]
      exact h2'
    · subst hbc
      have h1' : a.toNat < b.toNat := by simpa [charsLt, hab] using h1
      simp only [charsLt, if_neg hab, decide_eq_true_eq]
      exact h1'
    · have h1' : a.toNat < b.toNat := by simpa [charsLt, hab] using h1
      have h2' : b.toNat < c.toNat := by simpa [charsLt, hbc] using h2
      have hac : ¬a = c := by
        intro hh; subst hh; omega
      simp only [charsLt, if_neg hac, decide_eq_true_eq]
      omega

theorem charsLt_total : ∀ l m, l ≠ m → (charsLt l m || charsLt m l) = true
  | [], [], h => absurd rfl h
  | [], _ :: _, _ => rfl
  | _ :: _, [], _ => by simp [charsLt]
  | a :: as, b :: bs, h => by
    by_cases hab : a = b
    · subst hab
      have hne : as ≠ bs := fun hh => h (by rw [hh])
      simpa [charsLt] using charsLt_total as bs hne
    · have hn := char_toNat_ne hab
      have hba : ¬b = a := fun hh => hab hh.symm
      simp only [charsLt, if_neg hab, if_neg hba, Bool.or_eq_true, decide_eq_true_eq]
      omega

theorem string_toList_ne {a b : String} (h : a ≠ b) : a.toList ≠ b.toList := by
  intro hh
  exact h (String.ext hh)

theorem snGt_irrefl (x : Option String) : snGt x x = false := by
  cases x with
  | none => rfl
  | some s => simp [snGt, strGt, charsLt_irrefl]

theorem snGt_asymm {x y : Option String} (h : snGt x y = true) : snGt y x = false := by
  cases x <;> cases y <;> simp_all [snGt, strGt]
  exact charsLt_asymm _ _ h

theorem snGt_trans {x y z : Option String} (h1 : snGt x y = true) (h2 : snGt y z = true) :
    snGt x z = true := by
  cases x <;> cases y <;> cases z <;> simp_all [snGt, strGt]
  exact charsLt_trans _ _ _ h2 h1

theorem snGt_total {x y : Option String} (h : x ≠ y) : (snGt x y || snGt y x) = true := by
  cases x with
  | none =>
    cases y with
    | none => exact absurd rfl h
    | some t => rfl
  | some s =>
    cases y with
    | none => rfl
    | some t =>
      have hst : s ≠ t := by intro hh; exact h (by rw [hh])
      simpa [snGt, strGt] using charsLt_total t.toList s.toList
        (string_toList_ne fun hh => hst hh.symm)

theorem sufGt_asymm {x y : Option String} (h : sufGt x y = true) : sufGt y x = false := by
  cases x <;> cases y <;> simp_all [sufGt, strGt]
  exact charsLt_asymm _ _ h

theorem cgt_irrefl (a : DottedVersionComponent) : a.gt a = false := by
  simp [DottedVersionComponent.gt, snGt_irrefl]

theorem cgt_asymm {a b : DottedVersionComponent} (h : a.gt b = true) : b.gt a = false := by
  unfold DottedVersionComponent.gt at h ⊢
  simp only [ne_eq] at h ⊢
  by_cases hf : a.first_number = b.first_number
  · rw [if_neg (not_not_intro hf)] at h
    rw [if_neg (not_not_intro hf.symm)]
    by_cases hs : a.string = b.string
    · rw [if_pos hs] at h
      rw [if_pos hs.symm]
      exact snGt_asymm h
    · rw [if_neg hs] at h
      rw [if_neg fun hh => hs hh.symm]
      exact sufGt_asymm h
  · rw [if_pos hf] at h
    rw [if_pos fun hh => hf hh.symm]
    simp only [decide_eq_true_eq] at h
    simp only [decide_eq_false_iff_not]
    omega

theorem cgt_trans {a b c : DottedVersionComponent} (h1 : a.gt b = true) (h2 : b.gt c = true) :
    a.gt c = true := by
  unfold DottedVersionComponent.gt at h1 h2 ⊢
  simp only [ne_eq] at h1 h2 ⊢
  by_cases f1 : a.first_number = b.first_number <;> by_cases f2 : b.first_number = c.first_number
  · -- equal numeric prefixes throughout
    rw [if_neg (not_not_intro f1)] at h1
    rw [if_neg (not_not_intro f2)] at h2
    rw [if_neg (not_not_intro (f1.trans f2))]
    by_cases s1 : a.string = b.string <;> by_cases s2 : b.string = c.string
    · rw [if_pos s1] at h1
      rw [if_pos s2] at h2
      rw [if_pos (s1.trans s2)]
      exact snGt_trans h1 h2
    · rw [if_neg s2] at h2
      rw [if_neg fun hh => s2 (s1.symm.trans hh), s1]
      exact h2
    · rw [if_neg s1] at h1
      rw [if_neg fun hh => s1 (hh.trans s2.symm), ← s2]
      exact h1
    · rw [if_neg s1] at h1
      rw [if_neg s2] at h2
      rcases ha : a.string with _ | s <;> rcases hb : b.string with _ | t <;>
          rcases hc : c.string with _ | u <;>
        simp_all [sufGt, strGt]
      · -- a, b, c all carry distinct suffixes: lexicographic transitivity
        have htrans := charsLt_trans _ _ _ h2 h1
        have hne : ¬s = u := by
          intro hh
          subst hh
          exact absurd h1 (by simpa using charsLt_asymm _ _ h2)
        simp [hne, htrans]
  · rw [if_neg (not_not_intro f1)] at h1
    rw [if_pos f2] at h2
    simp only [decide_eq_true_eq] at h2
    rw [if_pos (show ¬a.first_number = c.first_number by omega)]
    simp only [decide_eq_true_eq]
    omega
  · rw [if_pos f1] at h1
    rw [if_neg (not_not_intro f2)] at h2
    simp only [decide_eq_true_eq] at h1
    rw [if_pos (show ¬a.first_number = c.first_number by omega)]
    simp only [decide_eq_true_eq]
    omega
  · rw [if_pos f1] at h1
    rw [if_pos f2] at h2
    simp only [decide_eq_true_eq] at h1 h2
    rw [if_pos (show ¬a.first_number = c.first_number by omega)]
    simp only [decide_eq_true_eq]
    omega

theorem cgt_total {a b : DottedVersionComponent} (h : a ≠ b) : (a.gt b || b.gt a) = true := by
  unfold DottedVersionComponent.gt
  simp only [ne_eq]
  by_cases hf : a.first_number = b.first_number
  · rw [if_neg (not_not_intro hf), if_neg (not_not_intro hf.symm)]
    by_cases hs : a.string = b.string
    · rw [if_pos hs, if_pos hs.symm]
      have hsn : a.second_number ≠ b.second_number := by
        intro hh
        apply h
        cases a; cases b
        simp_all
      exact snGt_total hsn
    · rw [if_neg hs, if_neg fun hh => hs hh.symm]
      rcases ha : a.string with _ | s <;> rcases hb : b.string with _ | t <;>
        simp_all [sufGt, strGt]
      simpa using charsLt_total t.toList s.toList (string_toList_ne fun hh => hs hh.symm)
  · rw [if_pos hf, if_pos fun hh => hf hh.symm]
    simp only [Bool.or_eq_true, decide_eq_true_eq]
    omega

/-- Head of a component list as the `__gt__` loop sees it: the
`ZERO_COMPONENT` padding when the list is exhausted. -/
def vhead : List DottedVersionComponent → DottedVersionComponent
  | [] => ZERO_COMPONENT
  | x :: _ => x

def vtail : List DottedVersionComponent → List DottedVersionComponent
  | [] => []
  | _ :: xs => xs

theorem vgtList_nil_right : ∀ l, vgtList l [] = gtZeros l
  | [] => rfl
  | _ :: _ => rfl

theorem veqPadded_nil_right : ∀ l, veqPadded l [] = allZeros l
  | [] => rfl
  | _ :: _ => rfl

/-- One iteration of the padded comparison loop. -/
theorem vgtList_view : ∀ a b, ¬(a = [] ∧ b = []) →
    vgtList a b = if vhead a = vhead b then vgtList (vtail a) (vtail b)
                  else (vhead a).gt (vhead b)
  | [], [], h => absurd ⟨rfl, rfl⟩ h
  | [], _ :: _, _ => rfl
  | x :: xs, [], _ => by
    show gtZeros (x :: xs) = _
    rw [show vgtList (vtail (x :: xs)) (vtail []) = gtZeros xs from vgtList_nil_right xs]
    rfl
  | _ :: _, _ :: _, _ => rfl

/-- One iteration of the padded equality loop. -/
theorem veqPadded_view : ∀ a b, ¬(a = [] ∧ b = []) →
    veqPadded a b = (decide (vhead a = vhead b) && veqPadded (vtail a) (vtail b))
  | [], [], h => absurd ⟨rfl, rfl⟩ h
  | [], y :: ys, _ => by
    show allZeros (y :: ys) = _
    have : decide (y = ZERO_COMPONENT) = decide (ZERO_COMPONENT = y) := by simp [eq_comm]
    simp only [allZeros, this]
    rfl
  | x :: xs, [], _ => by
    show allZeros (x :: xs) = _
    rw [show veqPadded (vtail (x :: xs)) (vtail []) = allZeros xs from veqPadded_nil_right xs]
    rfl
  | _ :: _, _ :: _, _ => rfl

theorem vtail_len {a b : List DottedVersionComponent} {n : Nat}
    (hn : a.length + b.length ≤ n + 1) (hne : ¬(a = [] ∧ b = [])) :
    (vtail a).length + (vtail b).length ≤ n := by
  cases a <;> cases b <;> simp_all [vtail] <;> omega

theorem vtail_len3 {a b c : List DottedVersionComponent} {n : Nat}
    (hn : a.length + b.length + c.length ≤ n + 1) (hne : ¬(a = [] ∧ b = [])) :
    (vtail a).length + (vtail b).length + (vtail c).length ≤ n := by
  cases a <;> cases b <;> cases c <;> simp_all [vtail] <;> omega

theorem vgt_irrefl : ∀ a, vgtList a a = false
  | [] => rfl
  | x :: xs => by simp [vgtList, vgt_irrefl xs]

theorem veq_refl : ∀ a, veqPadded a a = true
  | [] => rfl
  | x :: xs => by simp [veqPadded, veq_refl xs]

theorem vgt_asymm : ∀ a b, vgtList a b = true → vgtList b a = false := by
  suffices H : ∀ n a b, a.length + b.length ≤ n → vgtList a b = true → vgtList b a = false by
    intro a b
    exact H (a.length + b.length) a b le_rfl
  intro n
  induction n with
  | zero =>
    intro a b hlen h
    have ha : a = [] := by cases a <;> simp_all
    have hb : b = [] := by cases b <;> simp_all
    subst ha; subst hb
    simpa [vgtList, zerosGt] using h
  | succ n ih =>
    intro a b hlen h
    by_cases hz : a = [] ∧ b = []
    · obtain ⟨ha, hb⟩ := hz
      subst ha; subst hb
      simpa [vgtList, zerosGt] using h
    · have hz' : ¬(b = [] ∧ a = []) := fun hp => hz ⟨hp.2, hp.1⟩
      rw [vgtList_view a b hz] at h
      rw [vgtList_view b a hz']
      by_cases hh : vhead a = vhead b
      · rw [if_pos hh] at h
        rw [if_pos hh.symm]
        exact ih _ _ (vtail_len hlen hz) h
      · rw [if_neg hh] at h
        rw [if_neg fun hhh => hh hhh.symm]
        exact cgt_asymm h

theorem vgt_trans : ∀ a b c, vgtList a b = true → vgtList b c = true → vgtList a c = true := by
  suffices H : ∀ n a b c, a.length + b.length + c.length ≤ n →
      vgtList a b = true → vgtList b c = true → vgtList a c = true by
    intro a b c
    exact H (a.length + b.length + c.length) a b c le_rfl
  intro n
  induction n with
  | zero =>
    intro a b c hlen h1 _
    have ha : a = [] := by cases a <;> simp_all
    have hb : b = [] := by cases b <;> simp_all
    subst ha; subst hb
    simpa [vgtList, zerosGt] using h1
  | succ n ih =>
    intro a b c hlen h1 h2
    by_cases hab : a = [] ∧ b = []
    · obtain ⟨ha, hb⟩ := hab
      subst ha; subst hb
      simpa [vgtList, zerosGt] using h1
    by_cases hbc : b = [] ∧ c = []
    · obtain ⟨hb, hc⟩ := hbc
      subst hb; subst hc
      simpa [vgtList, zerosGt] using h2
    by_cases hac : a = [] ∧ c = []
    · obtain ⟨ha, hc⟩ := hac
      subst ha; subst hc
      exact absurd h2 (by simp [vgt_asymm [] b h1])
    rw [vgtList_view a b hab] at h1
    rw [vgtList_view b c hbc] at h2
    rw [vgtList_view a c hac]
    by_cases g1 : vhead a = vhead b <;> by_cases g2 : vhead b = vhead c
    · rw [if_pos g1] at h1
      rw [if_pos g2] at h2
      rw [if_pos (g1.trans g2)]
      exact ih _ _ _ (vtail_len3 hlen hab) h1 h2
    · rw [if_pos g1] at h1
      rw [if_neg g2] at h2
      rw [if_neg fun hh => g2 (g1.symm.trans hh), g1]
      exact h2
    · rw [if_neg g1] at h1
      rw [if_pos g2] at h2
      rw [if_neg fun hh => g1 (hh.trans g2.symm), ← g2]
      exact h1
    · rw [if_neg g1] at h1
      rw [if_neg g2] at h2
      have hne : vhead a ≠ vhead c := by
        intro hh
        rw [← hh] at h2
        exact absurd h2 (by simp [cgt_asymm h1])
      rw [if_neg hne]
      exact cgt_trans h1 h2

theorem vgt_total_of_not_veq : ∀ a b, veqPadded a b = false →
    (vgtList a b || vgtList b a) = true := by
  suffices H : ∀ n a b, a.length + b.length ≤ n → veqPadded a b = false →
      (vgtList a b || vgtList b a) = true by
    intro a b
    exact H (a.length + b.length) a b le_rfl
  intro n
  induction n with
  | zero =>
    intro a b hlen hq
    have ha : a = [] := by cases a <;> simp_all
    have hb : b = [] := by cases b <;> simp_all
    subst ha; subst hb
    simp [veqPadded, allZeros] at hq
  | succ n ih =>
    intro a b hlen hq
    by_cases hz : a = [] ∧ b = []
    · obtain ⟨ha, hb⟩ := hz
      subst ha; subst hb
      simp [veqPadded, allZeros] at hq
    · have hz' : ¬(b = [] ∧ a = []) := fun hp => hz ⟨hp.2, hp.1⟩
      rw [veqPadded_view a b hz] at hq
      rw [vgtList_view a b hz, vgtList_view b a hz']
      by_cases hh : vhead a = vhead b
      · rw [if_pos hh, if_pos hh.symm]
        rw [decide_eq_true hh, Bool.true_and] at hq
        exact ih _ _ (vtail_len hlen hz) hq
      · rw [if_neg hh, if_neg fun hhh => hh hhh.symm]
        exact cgt_total hh

theorem vgt_congr_left : ∀ a b c, veqPadded a b = true → vgtList a c = vgtList b c := by
  suffices H : ∀ n a b c, a.length + b.length + c.length ≤ n → veqPadded a b = true →
      vgtList a c = vgtList b c by
    intro a b c
    exact H (a.length + b.length + c.length) a b c le_rfl
  intro n
  induction n with
  | zero =>
    intro a b c hlen _
    have ha : a = [] := by cases a <;> simp_all
    have hb : b = [] := by cases b <;> simp_all
    rw [ha, hb]
  | succ n ih =>
    intro a b c hlen hq
    by_cases hab : a = [] ∧ b = []
    · rw [hab.1, hab.2]
    rw [veqPadded_view a b hab] at hq
    simp only [Bool.and_eq_true, decide_eq_true_eq] at hq
    obtain ⟨hh, ht⟩ := hq
    by_cases hac : a = [] ∧ c = []
    · obtain ⟨ha, hc⟩ := hac
      subst ha; subst hc
      have hb : ¬b = [] := fun hbb => hab ⟨rfl, hbb⟩
      rw [vgtList_view b [] (fun hp => hb hp.1)]
      rw [if_pos (show vhead b = vhead ([] : List DottedVersionComponent) from hh.symm)]
      have hlen2 : ([] : List DottedVersionComponent).length + (vtail b).length
          + ([] : List DottedVersionComponent).length ≤ n := by
        cases b <;> simp_all [vtail]
      exact ih [] (vtail b) [] hlen2 ht
    by_cases hbc : b = [] ∧ c = []
    · obtain ⟨hb, hc⟩ := hbc
      subst hb; subst hc
      have ha : ¬a = [] := fun haa => hab ⟨haa, rfl⟩
      rw [vgtList_view a [] (fun hp => ha hp.1)]
      rw [if_pos (show vhead a = vhead ([] : List DottedVersionComponent) from hh)]
      have hlen2 : (vtail a).length + ([] : List DottedVersionComponent).length
          + ([] : List DottedVersionComponent).length ≤ n := by
        cases a <;> simp_all [vtail]
      exact ih (vtail a) [] [] hlen2 ht
    rw [vgtList_view a c hac, vgtList_view b c hbc]
    by_cases hhc : vhead a = vhead c
    · rw [if_pos hhc, if_pos (hh.symm.trans hhc)]
      exact ih _ _ _ (vtail_len3 hlen hab) ht
    · rw [if_neg hhc, if_neg fun hx => hhc (hh.trans hx), hh]

theorem vgt_congr_right : ∀ a b c, veqPadded b c = true → vgtList a b = vgtList a c := by
  suffices H : ∀ n a b c, a.length + b.length + c.length ≤ n → veqPadded b c = true →
      vgtList a b = vgtList a c by
    intro a b c
    exact H (a.length + b.length + c.length) a b c le_rfl
  intro n
  induction n with
  | zero =>
    intro a b c hlen _
    have hb : b = [] := by cases b <;> simp_all
    have hc : c = [] := by cases c <;> simp_all
    rw [hb, hc]
  | succ n ih =>
    intro a b c hlen hq
    by_cases hbc : b = [] ∧ c = []
    · rw [hbc.1, hbc.2]
    rw [veqPadded_view b c hbc] at hq
    simp only [Bool.and_eq_true, decide_eq_true_eq] at hq
    obtain ⟨hh, ht⟩ := hq
    by_cases hab : a = [] ∧ b = []
    · obtain ⟨ha, hb⟩ := hab
      subst ha; subst hb
      have hc : ¬c = [] := fun hcc => hbc ⟨rfl, hcc⟩
      rw [vgtList_view [] c (fun hp => hc hp.2)]
      rw [if_pos (show vhead ([] : List DottedVersionComponent) = vhead c from hh)]
      have hlen2 : ([] : List DottedVersionComponent).length
          + ([] : List DottedVersionComponent).length + (vtail c).length ≤ n := by
        cases c <;> simp_all [vtail]
      exact ih [] [] (vtail c) hlen2 ht
    by_cases hac : a = [] ∧ c = []
    · obtain ⟨ha, hc⟩ := hac
      subst ha; subst hc
      have hb : ¬b = [] := fun hbb => hab ⟨rfl, hbb⟩
      rw [vgtList_view [] b (fun hp => hb hp.2)]
      rw [if_pos (show vhead ([] : List DottedVersionComponent) = vhead b from hh.symm)]
      have hlen2 : ([] : List DottedVersionComponent).length + (vtail b).length
          + ([] : List DottedVersionComponent).length ≤ n := by
        cases b <;> simp_all [vtail]
      exact ih [] (vtail b) [] hlen2 ht
    rw [vgtList_view a b hab, vgtList_view a c hac]
    by_cases hha : vhead a = vhead b
    · rw [if_pos hha, if_pos (hha.trans hh)]
      have hlen2 : (vtail a).length + (vtail b).length + (vtail c).length ≤ n := by
        cases a <;> cases b <;> cases c <;> simp_all [vtail] <;> omega
      exact ih _ _ _ hlen2 ht
    · rw [if_neg hha, if_neg fun hx => hha (hx.trans hh.symm), hh]

theorem vgt_neg_trans {a b c : List DottedVersionComponent}
    (h1 : vgtList a b = false) (h2 : vgtList b c = false) : vgtList a c = false := by
  cases hv : veqPadded a b with
  | true =>
    rw [vgt_congr_left a b c hv]
    exact h2
  | false =>
    have htot := vgt_total_of_not_veq a b hv
    rw [h1, Bool.false_or] at htot
    cases hv2 : veqPadded b c with
    | true =>
      rw [← vgt_congr_right a b c hv2]
      exact h1
    | false =>
      have htot2 := vgt_total_of_not_veq b c hv2
      rw [h2, Bool.false_or] at htot2
      exact vgt_asymm c a (vgt_trans c b a htot2 htot)

theorem allZeros_iff_strip_nil : ∀ l, allZeros l = true ↔ stripTrailingZeros l = []
  | [] => by simp [allZeros, stripTrailingZeros]
  | x :: xs => by
    simp only [allZeros, Bool.and_eq_true, decide_eq_true_eq, stripTrailingZeros]
    constructor
    · rintro ⟨hx, hxs⟩
      rw [(allZeros_iff_strip_nil xs).mp hxs]
      simp [hx]
    · intro h
      rcases hs : stripTrailingZeros xs with _ | ⟨y, ys⟩
      · rw [hs] at h
        by_cases hx : x = ZERO_COMPONENT
        · exact ⟨hx, (allZeros_iff_strip_nil xs).mpr hs⟩
        · simp [hx] at h
      · rw [hs] at h
        simp at h

theorem veqPadded_iff_strip : ∀ l m, veqPadded l m = true ↔
    stripTrailingZeros l = stripTrailingZeros m
  | [], m => by
    show allZeros m = true ↔ _
    rw [allZeros_iff_strip_nil m, show stripTrailingZeros [] = [] from rfl, eq_comm]
  | x :: xs, [] => by
    show allZeros (x :: xs) = true ↔ _
    rw [allZeros_iff_strip_nil (x :: xs), show stripTrailingZeros [] = [] from rfl]
  | x :: xs, y :: ys => by
    simp only [veqPadded, Bool.and_eq_true, decide_eq_true_eq]
    constructor
    · rintro ⟨hxy, ht⟩
      subst hxy
      have hs := (veqPadded_iff_strip xs ys).mp ht
      show stripTrailingZeros (x :: xs) = stripTrailingZeros (x :: ys)
      simp only [stripTrailingZeros, hs]
    · intro h
      show x = y ∧ veqPadded xs ys = true
      have hmain : x = y ∧ stripTrailingZeros xs = stripTrailingZeros ys := by
        simp only [stripTrailingZeros] at h
        rcases hxs : stripTrailingZeros xs with _ | ⟨a, as⟩ <;>
            rcases hys : stripTrailingZeros ys with _ | ⟨b, bs⟩ <;>
          rw [hxs, hys] at h
        · by_cases hx : x = ZERO_COMPONENT <;> by_cases hy : y = ZERO_COMPONENT <;>
            simp [hx, hy] at h <;> simp_all
        · by_cases hx : x = ZERO_COMPONENT <;> simp [hx] at h
        · by_cases hy : y = ZERO_COMPONENT <;> simp [hy] at h
        · simp_all
      exact ⟨hmain.1, (veqPadded_iff_strip xs ys).mpr hmain.2⟩

theorem strip_idem : ∀ l, stripTrailingZeros (stripTrailingZeros l) = stripTrailingZeros l
  | [] => rfl
  | x :: xs => by
    have hstep : ∀ t, stripTrailingZeros (x :: t) =
        (match stripTrailingZeros t with
          | [] => if x = ZERO_COMPONENT then [] else [x]
          | zs => x :: zs) := fun t => rfl
    rcases hs : stripTrailingZeros xs with _ | ⟨y, ys⟩
    · rw [hstep xs, hs]
      by_cases hx : x = ZERO_COMPONENT
      · simp [hx, stripTrailingZeros]
      · simp [hx, hstep, stripTrailingZeros]
    · have ht := strip_idem xs
      rw [hs] at ht
      rw [hstep xs, hs]
      show stripTrailingZeros (x :: y :: ys) = x :: y :: ys
      rw [hstep (y :: ys), ht]

theorem veq_strip_self (l : List DottedVersionComponent) :
    veqPadded (stripTrailingZeros l) l = true :=
  (veqPadded_iff_strip _ _).mpr (strip_idem l)

theorem vgt_strip_left (l m : List DottedVersionComponent) :
    vgtList (stripTrailingZeros l) m = vgtList l m :=
  vgt_congr_left _ _ _ (veq_strip_self l)

theorem vgt_strip_right (l m : List DottedVersionComponent) :
    vgtList l (stripTrailingZeros m) = vgtList l m :=
  vgt_congr_right _ _ _ (veq_strip_self m)

theorem veq_of_not_gt_not_gt {a b : List DottedVersionComponent}
    (h1 : vgtList a b = false) (h2 : vgtList b a = false) : veqPadded a b = true := by
  cases hv : veqPadded a b with
  | true => rfl
  | false =>
    have := vgt_total_of_not_veq a b hv
    rw [h1, h2] at this
    simp at this

theorem veq_false_of_gt {a b : List DottedVersionComponent}
    (h : vgtList a b = true) : veqPadded a b = false := by
  cases hv : veqPadded a b with
  | true =>
    rw [vgt_congr_left a b b hv, vgt_irrefl] at h
    exact h.symm
  | false => rfl

/-- The canonicalization invariant `DottedVersion.__init__` establishes:
the stored component list has no trailing zero components. -/
def DottedVersion.Canonical (v : DottedVersion) : Prop :=
  stripTrailingZeros v.components = v.components

instance (v : DottedVersion) : Decidable v.Canonical :=
  inferInstanceAs (Decidable (stripTrailingZeros v.components = v.components))

theorem DottedVersion.le_trans {a b c : DottedVersion}
    (h1 : a.le b = true) (h2 : b.le c = true) : a.le c = true := by
  simp only [DottedVersion.le, DottedVersion.gt, Bool.not_eq_true'] at h1 h2 ⊢
  exact vgt_neg_trans h1 h2

theorem DottedVersion.le_total (a b : DottedVersion) : (a.le b || b.le a) = true := by
  simp only [DottedVersion.le, DottedVersion.gt]
  cases h : vgtList a.components b.components with
  | false => simp
  | true => simp [vgt_asymm _ _ h]

theorem DottedVersion.gt_asymm {a b : DottedVersion} (h : a.gt b = true) : b.gt a = false :=
  vgt_asymm _ _ h

theorem DottedVersion.gt_trans {a b c : DottedVersion}
    (h1 : a.gt b = true) (h2 : b.gt c = true) : a.gt c = true :=
  vgt_trans _ _ _ h1 h2

theorem DottedVersion.gt_irrefl (a : DottedVersion) : a.gt a = false :=
  vgt_irrefl _

/-- For canonical versions (every value the program constructs), structural
inequality implies strict comparability: the order is total. -/
theorem DottedVersion.gt_total_of_canonical {a b : DottedVersion}
    (ha : a.Canonical) (hb : b.Canonical) (h : a ≠ b) :
    (a.gt b || b.gt a) = true := by
  apply vgt_total_of_not_veq
  cases hv : veqPadded a.components b.components with
  | false => rfl
  | true =>
    have hs := (veqPadded_iff_strip _ _).mp hv
    rw [ha, hb] at hs
    exact absurd (by cases a; cases b; simp_all : a = b) h

theorem nextComp_gt (c : DottedVersionComponent) :
    c.next ≠ c ∧ c.next.gt c = true := by
  obtain ⟨f, st, sn⟩ := c
  rcases st with _ | s
  · refine ⟨by simp [DottedVersionComponent.next], ?_⟩
    simp [DottedVersionComponent.next, DottedVersionComponent.gt]
  · by_cases hs : s.isEmpty
    · refine ⟨by simp [DottedVersionComponent.next, hs], ?_⟩
      simp [DottedVersionComponent.next, hs, DottedVersionComponent.gt]
    · refine ⟨by simp [DottedVersionComponent.next, hs], ?_⟩
      simp [DottedVersionComponent.next, hs, DottedVersionComponent.gt, sufGt]

theorem nextMajor_gt (v : DottedVersion) (h : v.components ≠ []) :
    ∃ w, v.nextMajor = some w ∧ w.gt v = true := by
  rcases hv : v.components with _ | ⟨c, rest⟩
  · exact absurd hv h
  refine ⟨⟨stripTrailingZeros [c.next]⟩, by simp [DottedVersion.nextMajor, hv], ?_⟩
  show vgtList (stripTrailingZeros [c.next]) v.components = true
  rw [vgt_strip_left, hv]
  have hstep : vgtList [c.next] (c :: rest)
      = if c.next = c then vgtList [] rest else c.next.gt c := rfl
  rw [hstep, if_neg (nextComp_gt c).1]
  exact (nextComp_gt c).2

theorem nextMinor_gt (v : DottedVersion) (h : v.components ≠ []) :
    ∃ w, v.nextMinor = some w ∧ w.gt v = true := by
  rcases hv : v.components with _ | ⟨c0, rest⟩
  · exact absurd hv h
  rcases rest with _ | ⟨c1, rest2⟩
  · refine ⟨⟨stripTrailingZeros [c0, ZERO_COMPONENT.next]⟩,
      by simp [DottedVersion.nextMinor, hv], ?_⟩
    show vgtList (stripTrailingZeros [c0, ZERO_COMPONENT.next]) v.components = true
    rw [vgt_strip_left, hv]
    have hstep : vgtList [c0, ZERO_COMPONENT.next] [c0]
        = if c0 = c0 then vgtList [ZERO_COMPONENT.next] [] else c0.gt c0 := rfl
    rw [hstep, if_pos rfl]
    decide
  · refine ⟨⟨stripTrailingZeros [c0, c1.next]⟩,
      by simp [DottedVersion.nextMinor, hv], ?_⟩
    show vgtList (stripTrailingZeros [c0, c1.next]) v.components = true
    rw [vgt_strip_left, hv]
    have hstep : vgtList [c0, c1.next] (c0 :: c1 :: rest2)
        = if c0 = c0 then vgtList [c1.next] (c1 :: rest2) else c0.gt c0 := rfl
    rw [hstep, if_pos rfl]
    have hstep2 : vgtList [c1.next] (c1 :: rest2)
        = if c1.next = c1 then vgtList [] rest2 else c1.next.gt c1 := rfl
    rw [hstep2, if_neg (nextComp_gt c1).1]
    exact (nextComp_gt c1).2

/-- C4: the four-step component ordering rule.  The code stores the
trailing number as the *string* matched by `(\d*)` (`match.group(3) or 0`
lacks an `int(...)` conversion), so step 2 compares trailing numbers
lexicographically under Python 2: the component "2beta2" compares
*greater* than "2beta10", contradicting the claimed integer comparison.
This theorem evaluates the embedded code at the failing input. -/
theorem C4_trailing_number_compared_as_string :
    DottedVersionComponent.parse "2beta2" = some ⟨2, some "beta", some "2"⟩ ∧
    DottedVersionComponent.parse "2beta10" = some ⟨2, some "beta", some "10"⟩ ∧
    DottedVersionComponent.gt ⟨2, some "beta", some "2"⟩ ⟨2, some "beta", some "10"⟩ = true ∧
    DottedVersionComponent.gt ⟨2, some "beta", some "10"⟩ ⟨2, some "beta", some "2"⟩ = false :=
  ⟨by decide, by decide, by decide, by decide⟩

/-- C5: two parsed (hence canonicalized) versions are structurally equal
iff they are semantically equal, i.e. iff neither compares greater than
the other under the padded component-wise ordering; and the claim's three
concrete examples hold. -/
theorem C5_structural_eq_iff_semantic_eq :
    (∀ l m : List DottedVersionComponent,
      (DottedVersion.mk (stripTrailingZeros l) = DottedVersion.mk (stripTrailingZeros m)) ↔
        (vgtList l m = false ∧ vgtList m l = false)) ∧
    DottedVersion.parse "1.0.0" = DottedVersion.parse "1" ∧
    DottedVersion.parse "1.2" = DottedVersion.parse "1.2.0.0" ∧
    ((DottedVersion.parse "1.2").bind fun a =>
      (DottedVersion.parse "1.2.1").map fun b => a.lt b) = some true := by
  refine ⟨?_, by decide, by decide, by decide⟩
  intro l m
  constructor
  · intro h
    have hs : stripTrailingZeros l = stripTrailingZeros m :=
      congrArg DottedVersion.components h
    have hv : veqPadded l m = true := (veqPadded_iff_strip l m).mpr hs
    constructor
    · rw [vgt_congr_left l m m hv]
      exact vgt_irrefl m
    · rw [vgt_congr_right m l m hv]
      exact vgt_irrefl m
  · rintro ⟨h1, h2⟩
    exact congrArg DottedVersion.mk
      ((veqPadded_iff_strip l m).mp (veq_of_not_gt_not_gt h1 h2))

/-- C7 counterexample: "0" is a valid dotted string, its parse
canonicalizes to the empty component list, and on that value both
`nextMajor` and `nextMinor` raise IndexError (`self._components[0]` on an
empty list) instead of producing a greater version. -/
theorem C7_counterexample_zero_version :
    DottedVersion.parse "0" = some ⟨[]⟩ ∧
    (⟨[]⟩ : DottedVersion).nextMajor = none ∧
    (⟨[]⟩ : DottedVersion).nextMinor = none :=
  ⟨by decide, rfl, rfl⟩

/-- C7 (amended): for every version whose canonical component list is
nonempty - i.e. every parsed version other than the zero version -
`nextMajor` and `nextMinor` are defined and compare strictly greater. -/
theorem C7_next_strictly_greater (v : DottedVersion) (h : v.components ≠ []) :
    (v.nextMajor.map fun w => w.gt v) = some true ∧
    (v.nextMinor.map fun w => w.gt v) = some true := by
  obtain ⟨w1, hw1, hg1⟩ := nextMajor_gt v h
  obtain ⟨w2, hw2, hg2⟩ := nextMinor_gt v h
  rw [hw1, hw2]
  simp [hg1, hg2]

theorem C7_witness :
    ((⟨[⟨1, none, none⟩, ⟨2, none, none⟩]⟩ : DottedVersion).nextMajor.map
      fun w => w.gt ⟨[⟨1, none, none⟩, ⟨2, none, none⟩]⟩) = some true ∧
    ((⟨[⟨1, none, none⟩, ⟨2, none, none⟩]⟩ : DottedVersion).nextMinor.map
      fun w => w.gt ⟨[⟨1, none, none⟩, ⟨2, none, none⟩]⟩) = some true :=
  C7_next_strictly_greater ⟨[⟨1, none, none⟩, ⟨2, none, none⟩]⟩ (by decide)

/-- Embeds `DottedVersionRange.__init__` (the Python default for
`upper_bound_inclusive` is True). -/
structure DottedVersionRange where
  lower_bound : DottedVersion
  upper_bound : DottedVersion
  upper_bound_inclusive : Bool := true
deriving DecidableEq

/-- Embeds `DottedVersionRange.contains`. -/
def DottedVersionRange.contains (r : DottedVersionRange) (version : DottedVersion) : Bool :=
  if version.lt r.lower_bound then false
  else if r.upper_bound_inclusive then version.le r.upper_bound
  else version.lt r.upper_bound

/-- One iteration of the loop in `DottedVersionRange.intersect`: raise the
lower bound on strict `>`, lower the upper bound (taking the incoming
range's inclusivity flag with it) on strict `<`. -/
def intersectStep (st : DottedVersion × DottedVersion × Bool)
    (version_range : DottedVersionRange) : DottedVersion × DottedVersion × Bool :=
  let lb := if version_range.lower_bound.gt st.1 then version_range.lower_bound else st.1
  if version_range.upper_bound.lt st.2.1
  then (lb, version_range.upper_bound, version_range.upper_bound_inclusive)
  else (lb, st.2.1, st.2.2)

/-- Embeds `DottedVersionRange.intersect(first_range, *version_ranges)`. -/
def DottedVersionRange.intersect (first_range : DottedVersionRange)
    (version_ranges : List DottedVersionRange) : DottedVersionRange :=
  let st := version_ranges.foldl intersectStep
    (first_range.lower_bound, first_range.upper_bound, first_range.upper_bound_inclusive)
  ⟨st.1, st.2.1, st.2.2⟩

theorem lt_true_iff (a b : DottedVersion) : a.lt b = true ↔ (a.gt b = false ∧ a ≠ b) := by
  simp [DottedVersion.lt, Bool.not_eq_true']

theorem lt_false_iff (a b : DottedVersion) : a.lt b = false ↔ (a.gt b = true ∨ a = b) := by
  rw [← Bool.not_eq_true, lt_true_iff]
  by_cases h : a.gt b = true <;> by_cases he : a = b <;> simp [h, he]

/-- Invariant of the `intersect` loop after the ranges in `done` (the
first range and every loop iteration processed so far) have been folded
into the running state `st = (lower, upper, inclusive)`. -/
def IntersectInv (done : List DottedVersionRange)
    (st : DottedVersion × DottedVersion × Bool) : Prop :=
  (∃ r ∈ done, r.lower_bound = st.1) ∧
  (∀ r ∈ done, r.lower_bound.gt st.1 = false) ∧
  (∃ r, (done.find? fun r => decide (r.upper_bound = st.2.1)) = some r ∧
      r.upper_bound = st.2.1 ∧ r.upper_bound_inclusive = st.2.2) ∧
  (∀ r ∈ done, st.2.1.gt r.upper_bound = false)

/-- Preservation of the loop invariant by one `intersect` iteration. -/
theorem intersectInv_step (done : List DottedVersionRange)
    (st : DottedVersion × DottedVersion × Bool) (rr : DottedVersionRange)
    (hcanon : ∀ r ∈ done ++ [rr], r.upper_bound.Canonical)
    (hinv : IntersectInv done st) :
    IntersectInv (done ++ [rr]) (intersectStep st rr) := by
  obtain ⟨⟨rl, hrlm, hrle⟩, hmax, ⟨rf, hfind, hfeq, hfinc⟩, hmin⟩ := hinv
  have hrfm : rf ∈ done := List.mem_of_find?_eq_some hfind
  have hstub_canon : st.2.1.Canonical := hfeq ▸ hcanon rf (List.mem_append_left _ hrfm)
  have hrr_canon : rr.upper_bound.Canonical :=
    hcanon rr (List.mem_append_right _ (List.mem_singleton.mpr rfl))
  have hlower : ∀ ub : DottedVersion, ∀ inc : Bool,
      (∃ r ∈ done ++ [rr],
        r.lower_bound = ((if rr.lower_bound.gt st.1 then rr.lower_bound else st.1), ub, inc).1) ∧
      (∀ r ∈ done ++ [rr],
        r.lower_bound.gt ((if rr.lower_bound.gt st.1 then rr.lower_bound else st.1),
          ub, inc).1 = false) := by
    intro ub inc
    cases hcond : rr.lower_bound.gt st.1 with
    | true =>
      rw [if_pos (rfl : (true : Bool) = true)]
      constructor
      · exact ⟨rr, List.mem_append_right _ (List.mem_singleton.mpr rfl), rfl⟩
      · intro r hr
        rcases List.mem_append.mp hr with hd | hs
        · cases hg : DottedVersion.gt r.lower_bound rr.lower_bound with
          | false => rfl
          | true => exact absurd (DottedVersion.gt_trans hg hcond) (by simp [hmax r hd])
        · rw [List.mem_singleton.mp hs]
          exact DottedVersion.gt_irrefl _
    | false =>
      rw [if_neg (by decide : ¬((false : Bool) = true))]
      constructor
      · exact ⟨rl, List.mem_append_left _ hrlm, hrle⟩
      · intro r hr
        rcases List.mem_append.mp hr with hd | hs
        · exact hmax r hd
        · rw [List.mem_singleton.mp hs]
          exact hcond
  cases hcond2 : rr.upper_bound.lt st.2.1 with
  | true =>
    have hstep_eq : intersectStep st rr =
        ((if rr.lower_bound.gt st.1 then rr.lower_bound else st.1),
          rr.upper_bound, rr.upper_bound_inclusive) := by
      unfold intersectStep
      simp [hcond2]
    rw [hstep_eq]
    obtain ⟨hlt1, hlt2⟩ := (lt_true_iff _ _).mp hcond2
    have hgtstub : st.2.1.gt rr.upper_bound = true := by
      have := DottedVersion.gt_total_of_canonical hrr_canon hstub_canon hlt2
      rw [hlt1, Bool.false_or] at this
      exact this
    have hnotin : ∀ r ∈ done, ¬(r.upper_bound = rr.upper_bound) := by
      intro r hr heq
      have hx := hmin r hr
      rw [heq] at hx
      rw [hx] at hgtstub
      exact Bool.false_ne_true hgtstub
    refine ⟨(hlower _ _).1, (hlower _ _).2, ?_, ?_⟩
    · refine ⟨rr, ?_, rfl, rfl⟩
      rw [List.find?_append]
      have hnone : (done.find? fun r => decide (r.upper_bound = rr.upper_bound)) = none := by
        rw [List.find?_eq_none]
        intro r hr
        simp only [decide_eq_true_eq]
        exact hnotin r hr
      rw [hnone, Option.none_or]
      simp [List.find?_cons]
    · intro r hr
      rcases List.mem_append.mp hr with hd | hs
      · cases hg : DottedVersion.gt rr.upper_bound r.upper_bound with
        | false => rfl
        | true => exact absurd (DottedVersion.gt_trans hgtstub hg) (by simp [hmin r hd])
      · rw [List.mem_singleton.mp hs]
        exact DottedVersion.gt_irrefl _
  | false =>
    have hstep_eq : intersectStep st rr =
        ((if rr.lower_bound.gt st.1 then rr.lower_bound else st.1), st.2.1, st.2.2) := by
      unfold intersectStep
      simp [hcond2]
    rw [hstep_eq]
    refine ⟨(hlower _ _).1, (hlower _ _).2, ?_, ?_⟩
    · refine ⟨rf, ?_, hfeq, hfinc⟩
      rw [List.find?_append, hfind]
      rfl
    · intro r hr
      rcases List.mem_append.mp hr with hd | hs
      · exact hmin r hd
      · rw [List.mem_singleton.mp hs]
        rcases (lt_false_iff _ _).mp hcond2 with hg | he
        · exact DottedVersion.gt_asymm hg
        · rw [he]
          exact DottedVersion.gt_irrefl _

theorem intersectInv_fold : ∀ (rest done : List DottedVersionRange)
    (st : DottedVersion × DottedVersion × Bool),
    (∀ r ∈ done ++ rest, r.upper_bound.Canonical) → IntersectInv done st →
    IntersectInv (done ++ rest) (rest.foldl intersectStep st)
  | [], done, st, _, hinv => by simpa using hinv
  | rr :: rest, done, st, hcanon, hinv => by
    have hstep := intersectInv_step done st rr
      (fun r hr => hcanon r (by
        rcases List.mem_append.mp hr with hd | hs
        · exact List.mem_append_left _ hd
        · exact List.mem_append_right _ (by simp_all)))
      hinv
    have hrec := intersectInv_fold rest (done ++ [rr]) (intersectStep st rr)
      (fun r hr => hcanon r (by
        rcases List.mem_append.mp hr with hd | hs
        · rcases List.mem_append.mp hd with hd2 | hs2
          · exact List.mem_append_left _ hd2
          · exact List.mem_append_right _ (by simp_all)
        · exact List.mem_append_right _ (by simp_all)))
      hstep
    simpa [List.append_assoc] using hrec

theorem intersect_invariant (first_range : DottedVersionRange)
    (version_ranges : List DottedVersionRange)
    (hcanon : ∀ r ∈ first_range :: version_ranges, r.upper_bound.Canonical) :
    IntersectInv (first_range :: version_ranges)
      (version_ranges.foldl intersectStep
        (first_range.lower_bound, first_range.upper_bound,
          first_range.upper_bound_inclusive)) := by
  have hbase : IntersectInv [first_range]
      (first_range.lower_bound, first_range.upper_bound,
        first_range.upper_bound_inclusive) := by
    refine ⟨⟨first_range, List.mem_singleton.mpr rfl, rfl⟩, ?_,
      ⟨first_range, ?_, rfl, rfl⟩, ?_⟩
    · intro r hr
      rw [List.mem_singleton.mp hr]
      exact DottedVersion.gt_irrefl _
    · simp [List.find?_cons]
    · intro r hr
      rw [List.mem_singleton.mp hr]
      exact DottedVersion.gt_irrefl _
  have hfold := intersectInv_fold version_ranges [first_range] _
    (by simpa using hcanon) hbase
  simpa using hfold

/-- C6: intersecting `first_range :: version_ranges` produces the range
whose lower bound is the maximum of the lower bounds (it is one of them
and none compares greater), whose upper bound is the minimum of the upper
bounds, and whose inclusivity flag comes from a range that supplied that
minimum upper bound; concretely `[1.0, 3.0) ∩ [2.0, 4.0) = [2.0, 3.0)`.
The canonicity hypothesis holds for every range the program builds, since
all bounds come out of `DottedVersion.__init__`. -/
theorem C6_intersect_bounds (first_range : DottedVersionRange)
    (version_ranges : List DottedVersionRange)
    (hcanon : ∀ r ∈ first_range :: version_ranges, r.upper_bound.Canonical) :
    (∃ r ∈ first_range :: version_ranges,
      r.lower_bound = (first_range.intersect version_ranges).lower_bound) ∧
    (∀ r ∈ first_range :: version_ranges,
      r.lower_bound.gt (first_range.intersect version_ranges).lower_bound = false) ∧
    (∃ r ∈ first_range :: version_ranges,
      r.upper_bound = (first_range.intersect version_ranges).upper_bound ∧
      r.upper_bound_inclusive = (first_range.intersect version_ranges).upper_bound_inclusive) ∧
    (∀ r ∈ first_range :: version_ranges,
      (first_range.intersect version_ranges).upper_bound.gt r.upper_bound = false) ∧
    DottedVersionRange.intersect ⟨⟨[⟨1, none, none⟩]⟩, ⟨[⟨3, none, none⟩]⟩, false⟩
        [⟨⟨[⟨2, none, none⟩]⟩, ⟨[⟨4, none, none⟩]⟩, false⟩] =
      ⟨⟨[⟨2, none, none⟩]⟩, ⟨[⟨3, none, none⟩]⟩, false⟩ := by
  obtain ⟨⟨rl, hm, he⟩, hmax, ⟨rf, hfind, hfeq, hfinc⟩, hmin⟩ :=
    intersect_invariant first_range version_ranges hcanon
  exact ⟨⟨rl, hm, he⟩, hmax,
    ⟨rf, List.mem_of_find?_eq_some hfind, hfeq, hfinc⟩, hmin, by decide⟩

theorem C6_witness :
    (∃ r ∈ [(⟨⟨[⟨1, none, none⟩]⟩, ⟨[⟨3, none, none⟩]⟩, false⟩ : DottedVersionRange),
        ⟨⟨[⟨2, none, none⟩]⟩, ⟨[⟨4, none, none⟩]⟩, false⟩],
      r.lower_bound = (DottedVersionRange.intersect
        ⟨⟨[⟨1, none, none⟩]⟩, ⟨[⟨3, none, none⟩]⟩, false⟩
        [⟨⟨[⟨2, none, none⟩]⟩, ⟨[⟨4, none, none⟩]⟩, false⟩]).lower_bound) ∧
    (∀ r ∈ [(⟨⟨[⟨1, none, none⟩]⟩, ⟨[⟨3, none, none⟩]⟩, false⟩ : DottedVersionRange),
        ⟨⟨[⟨2, none, none⟩]⟩, ⟨[⟨4, none, none⟩]⟩, false⟩],
      r.lower_bound.gt (DottedVersionRange.intersect
        ⟨⟨[⟨1, none, none⟩]⟩, ⟨[⟨3, none, none⟩]⟩, false⟩
        [⟨⟨[⟨2, none, none⟩]⟩, ⟨[⟨4, none, none⟩]⟩, false⟩]).lower_bound = false) ∧
    (∃ r ∈ [(⟨⟨[⟨1, none, none⟩]⟩, ⟨[⟨3, none, none⟩]⟩, false⟩ : DottedVersionRange),
        ⟨⟨[⟨2, none, none⟩]⟩, ⟨[⟨4, none, none⟩]⟩, false⟩],
      r.upper_bound = (DottedVersionRange.intersect
        ⟨⟨[⟨1, none, none⟩]⟩, ⟨[⟨3, none, none⟩]⟩, false⟩
        [⟨⟨[⟨2, none, none⟩]⟩, ⟨[⟨4, none, none⟩]⟩, false⟩]).upper_bound ∧
      r.upper_bound_inclusive = (DottedVersionRange.intersect
        ⟨⟨[⟨1, none, none⟩]⟩, ⟨[⟨3, none, none⟩]⟩, false⟩
        [⟨⟨[⟨2, none, none⟩]⟩, ⟨[⟨4, none, none⟩]⟩, false⟩]).upper_bound_inclusive) ∧
    (∀ r ∈ [(⟨⟨[⟨1, none, none⟩]⟩, ⟨[⟨3, none, none⟩]⟩, false⟩ : DottedVersionRange),
        ⟨⟨[⟨2, none, none⟩]⟩, ⟨[⟨4, none, none⟩]⟩, false⟩],
      (DottedVersionRange.intersect
        ⟨⟨[⟨1, none, none⟩]⟩, ⟨[⟨3, none, none⟩]⟩, false⟩
        [⟨⟨[⟨2, none, none⟩]⟩, ⟨[⟨4, none, none⟩]⟩, false⟩]).upper_bound.gt
          r.upper_bound = false) ∧
    DottedVersionRange.intersect ⟨⟨[⟨1, none, none⟩]⟩, ⟨[⟨3, none, none⟩]⟩, false⟩
        [⟨⟨[⟨2, none, none⟩]⟩, ⟨[⟨4, none, none⟩]⟩, false⟩] =
      ⟨⟨[⟨2, none, none⟩]⟩, ⟨[⟨3, none, none⟩]⟩, false⟩ :=
  C6_intersect_bounds ⟨⟨[⟨1, none, none⟩]⟩, ⟨[⟨3, none, none⟩]⟩, false⟩
    [⟨⟨[⟨2, none, none⟩]⟩, ⟨[⟨4, none, none⟩]⟩, false⟩] (by decide)

/-- C10: the inclusivity flag of an intersection is the flag of the
*earliest* range (in argument order) whose upper bound equals the
resulting minimum upper bound, because the loop replaces the flag only on
a strictly smaller upper bound; concretely, intersecting `[1, 2]`
(inclusive) with `[1, 2)` (exclusive) keeps the first range's inclusive
flag on the tied upper bound. -/
theorem C10_inclusive_flag_from_earliest_minimum (first_range : DottedVersionRange)
    (version_ranges : List DottedVersionRange)
    (hcanon : ∀ r ∈ first_range :: version_ranges, r.upper_bound.Canonical) :
    (∃ r, ((first_range :: version_ranges).find? fun r =>
        decide (r.upper_bound = (first_range.intersect version_ranges).upper_bound))
          = some r ∧
      r.upper_bound_inclusive = (first_range.intersect version_ranges).upper_bound_inclusive) ∧
    DottedVersionRange.intersect ⟨⟨[⟨1, none, none⟩]⟩, ⟨[⟨2, none, none⟩]⟩, true⟩
        [⟨⟨[⟨1, none, none⟩]⟩, ⟨[⟨2, none, none⟩]⟩, false⟩] =
      ⟨⟨[⟨1, none, none⟩]⟩, ⟨[⟨2, none, none⟩]⟩, true⟩ := by
  obtain ⟨_, _, ⟨rf, hfind, hfeq, hfinc⟩, _⟩ :=
    intersect_invariant first_range version_ranges hcanon
  exact ⟨⟨rf, hfind, hfinc⟩, by decide⟩

theorem C10_witness :
    (∃ r, (([(⟨⟨[⟨1, none, none⟩]⟩, ⟨[⟨2, none, none⟩]⟩, true⟩ : DottedVersionRange),
        ⟨⟨[⟨1, none, none⟩]⟩, ⟨[⟨2, none, none⟩]⟩, false⟩]).find? fun r =>
        decide (r.upper_bound = (DottedVersionRange.intersect
          ⟨⟨[⟨1, none, none⟩]⟩, ⟨[⟨2, none, none⟩]⟩, true⟩
          [⟨⟨[⟨1, none, none⟩]⟩, ⟨[⟨2, none, none⟩]⟩, false⟩]).upper_bound)) = some r ∧
      r.upper_bound_inclusive = (DottedVersionRange.intersect
        ⟨⟨[⟨1, none, none⟩]⟩, ⟨[⟨2, none, none⟩]⟩, true⟩
        [⟨⟨[⟨1, none, none⟩]⟩, ⟨[⟨2, none, none⟩]⟩, false⟩]).upper_bound_inclusive) ∧
    DottedVersionRange.intersect ⟨⟨[⟨1, none, none⟩]⟩, ⟨[⟨2, none, none⟩]⟩, true⟩
        [⟨⟨[⟨1, none, none⟩]⟩, ⟨[⟨2, none, none⟩]⟩, false⟩] =
      ⟨⟨[⟨1, none, none⟩]⟩, ⟨[⟨2, none, none⟩]⟩, true⟩ :=
  C10_inclusive_flag_from_earliest_minimum
    ⟨⟨[⟨1, none, none⟩]⟩, ⟨[⟨2, none, none⟩]⟩, true⟩
    [⟨⟨[⟨1, none, none⟩]⟩, ⟨[⟨2, none, none⟩]⟩, false⟩] (by decide)

/-! ### Manifests, repositories, graph collection and resolution -/

/-- The runtime errors the embedded code can raise: Python builtins
(TypeError, AttributeError, KeyError, IndexError, IOError, the recursion
limit, a failed subprocess) and the script's own exception classes
(`LocalDepedencyNotAllowedError` - the typo is the source's -
and `VersionParseError`). -/
inductive PyErr
  | typeError (msg : String)
  | attributeError (msg : String)
  | keyError
  | indexError
  | ioError
  | recursionError
  | calledProcessError
  | localDepedencyNotAllowed (msg : String)
  | versionParseError (msg : String)
deriving DecidableEq

deriving instance DecidableEq for Except

/-- Embeds `ManifestInitializer(path, method)`. -/
structure ManifestInitializer where
  path : String
  method : String
deriving DecidableEq

/-- Embeds `ManifestLocalDependency(path)` / `ManifestRemoteDependency(url,
version_range)`. -/
inductive ManifestDependency
  | ManifestLocalDependency (path : String)
  | ManifestRemoteDependency (url : String) (version_range : DottedVersionRange)
deriving DecidableEq

/-- A parsed `Manifest`: its `name`, `dependencies` and `initializer`
properties. -/
structure Manifest where
  name : String
  dependencies : List ManifestDependency
  initializer : Option ManifestInitializer
deriving DecidableEq

/-- One entry of a manifest's `deps` JSON list, restricted to the keys
`_parse_manifest` inspects (`from` is a Lean keyword, hence
`from_version`). -/
structure DepData where
  url : Option String
  from_version : Option String
  up_to_next_major : Option String
  up_to_next_minor : Option String
  exact : Option String
  path : Option String
deriving DecidableEq

/-- The `from` / `up_to_next_major` branches of `Manifest._parse_manifest`:
`DottedVersionRange(version, version.nextMajor, upper_bound_inclusive=False)`.
A string the component regex rejects crashes version parsing
(AttributeError on `None.group`); the zero version crashes `nextMajor`
(IndexError on `components[0]`). -/
def rangeUpToNextMajor (s : String) : Except PyErr DottedVersionRange :=
  match DottedVersion.parse s with
  | none => .error (.attributeError "NoneType object has no attribute group")
  | some v =>
    match v.nextMajor with
    | none => .error .indexError
    | some nm => .ok ⟨v, nm, false⟩

/-- The `up_to_next_minor` branch. -/
def rangeUpToNextMinor (s : String) : Except PyErr DottedVersionRange :=
  match DottedVersion.parse s with
  | none => .error (.attributeError "NoneType object has no attribute group")
  | some v =>
    match v.nextMinor with
    | none => .error .indexError
    | some nm => .ok ⟨v, nm, false⟩

/-- The `exact` branch: `DottedVersionRange(version, version)` with the
default inclusive upper bound. -/
def rangeExact (s : String) : Except PyErr DottedVersionRange :=
  match DottedVersion.parse s with
  | none => .error (.attributeError "NoneType object has no attribute group")
  | some v => .ok ⟨v, v, true⟩

/-- The version-declaration dispatch of `_parse_manifest`, checking the
keys `from`, `up_to_next_major`, `up_to_next_minor`, `exact` in that
order and raising VersionParseError when none is present. -/
def versionRangeOfDepData (d : DepData) : Except PyErr DottedVersionRange :=
  match d.from_version with
  | some s => rangeUpToNextMajor s
  | none =>
    match d.up_to_next_major with
    | some s => rangeUpToNextMajor s
    | none =>
      match d.up_to_next_minor with
      | some s => rangeUpToNextMinor s
      | none =>
        match d.exact with
        | some s => rangeExact s
        | none => .error (.versionParseError "Couldn't find any version declaration.")

/-- One `deps` entry of `_parse_manifest`: `url` entries become remote
dependencies, `path` entries become local dependencies but only when
`_local_deps_allowed` (else `LocalDepedencyNotAllowedError`), anything
else is printed and skipped (`none`). -/
def parseDepData (local_deps_allowed : Bool) (d : DepData) :
    Except PyErr (Option ManifestDependency) :=
  match d.url with
  | some u => (versionRangeOfDepData d).map fun r =>
      some (.ManifestRemoteDependency u r)
  | none =>
    match d.path with
    | some p =>
      if local_deps_allowed then .ok (some (.ManifestLocalDependency p))
      else .error (.localDepedencyNotAllowed
        "Local dependencies are only allowed at root manifests.")
    | none => .ok none

/-- The `deps` loop of `_parse_manifest`, accumulating parsed entries. -/
def parseDepsAux (local_deps_allowed : Bool) :
    List DepData → List ManifestDependency → Except PyErr (List ManifestDependency)
  | [], acc => .ok acc
  | d :: ds, acc =>
    match parseDepData local_deps_allowed d with
    | .error e => .error e
    | .ok none => parseDepsAux local_deps_allowed ds acc
    | .ok (some dep) => parseDepsAux local_deps_allowed ds (acc ++ [dep])

/-- The JSON payload of a manifest as far as parsing inspects it. -/
structure ManifestData where
  name : String
  deps : List DepData
  initializer : Option ManifestInitializer
deriving DecidableEq

/-- Embeds `Manifest.__init__(file, is_root)` / `Manifest._parse_manifest`:
`_local_deps_allowed` is exactly the `is_root` flag. -/
def Manifest.parseData (data : ManifestData) (is_root : Bool) : Except PyErr Manifest :=
  (parseDepsAux is_root data.deps []).map fun deps =>
    ⟨data.name, deps, data.initializer⟩

theorem parseDepsAux_append (allowed : Bool) :
    ∀ (xs ys : List DepData) (acc : List ManifestDependency),
      parseDepsAux allowed (xs ++ ys) acc =
        match parseDepsAux allowed xs acc with
        | .error e => .error e
        | .ok l => parseDepsAux allowed ys l
  | [], _, _ => rfl
  | d :: ds, ys, acc => by
    simp only [List.cons_append, parseDepsAux]
    cases parseDepData allowed d with
    | error e => rfl
    | ok o =>
      cases o with
      | none => exact parseDepsAux_append allowed ds ys acc
      | some dep => exact parseDepsAux_append allowed ds ys (acc ++ [dep])

/-- A `deps` entry containing only a `path` key. -/
def pathDepData (p : String) : DepData := ⟨none, none, none, none, none, some p⟩

/-- C9: a `path` dependency entry raises `LocalDepedencyNotAllowedError`
when the manifest is not the root (whatever well-parsed entries precede or
follow it), while the root manifest accepts the same entry as a local
declaration appended to its dependency list. -/
theorem C9_local_deps_only_at_root (name : String) (init : Option ManifestInitializer)
    (p : String) (ds1 ds2 : List DepData) (l : List ManifestDependency) :
    (parseDepsAux false ds1 [] = .ok l →
      Manifest.parseData ⟨name, ds1 ++ pathDepData p :: ds2, init⟩ false
        = .error (.localDepedencyNotAllowed
            "Local dependencies are only allowed at root manifests.")) ∧
    (parseDepsAux true ds1 [] = .ok l →
      Manifest.parseData ⟨name, ds1 ++ [pathDepData p], init⟩ true
        = .ok ⟨name, l ++ [.ManifestLocalDependency p], init⟩) := by
  constructor
  · intro h
    unfold Manifest.parseData
    simp only [parseDepsAux_append false ds1 (pathDepData p :: ds2) [], h]
    rfl
  · intro h
    unfold Manifest.parseData
    simp only [parseDepsAux_append true ds1 [pathDepData p] [], h]
    rfl

theorem C9_witness :
    Manifest.parseData ⟨"root", [pathDepData "depdir"], none⟩ false
      = .error (.localDepedencyNotAllowed
          "Local dependencies are only allowed at root manifests.") ∧
    Manifest.parseData ⟨"root", [pathDepData "depdir"], none⟩ true
      = .ok ⟨"root", [.ManifestLocalDependency "depdir"], none⟩ :=
  ⟨(C9_local_deps_only_at_root "root" none "depdir" [] [] []).1 rfl,
   (C9_local_deps_only_at_root "root" none "depdir" [] [] []).2 rfl⟩

/-- Association-list lookup, the embedding of a Python dict access. -/
def alookup {α β : Type} [DecidableEq α] (k : α) : List (α × β) → Option β
  | [] => none
  | (a, b) :: rest => if a = k then some b else alookup k rest

/-- What a `GitRepo` exposes after `_update()`: `_revisions` (the tag
dict's items: tagged version -> revision hash) and the manifest found at
each tagged version's checkout. -/
structure GitRepoData where
  url : String
  revisions : List (DottedVersion × String)
  manifests : List (DottedVersion × Manifest)
deriving DecidableEq

/-- Embeds `GitRepo.versions`: `self._revisions.keys()`. -/
def GitRepoData.versions (repo : GitRepoData) : List DottedVersion :=
  repo.revisions.map Prod.fst

/-- Embeds `GitRepo.revisionForVersion`: `self._revisions[version]`, KeyError on
a version that is not a tag. -/
def GitRepoData.revisionForVersion (repo : GitRepoData) (version : DottedVersion) :
    Except PyErr String :=
  match alookup version repo.revisions with
  | none => .error .keyError
  | some rev => .ok rev

/-- Embeds `GitRepo.manifestAtVersion`: checks out `self._revisions[version]`
(KeyError on an unknown version) and parses the working tree's
`pesto.json` (an unreadable file is an IOError). -/
def GitRepoData.manifestAtVersion (repo : GitRepoData) (version : DottedVersion) :
    Except PyErr Manifest :=
  match alookup version repo.revisions with
  | none => .error .keyError
  | some _ =>
    match alookup version repo.manifests with
    | none => .error .ioError
    | some m => .ok m

/-- Embeds `RequestedLocalVersion(name, path, initializer)` and
`RequestedRemoteVersion(name, git_repo, version_range)` as the classes
are declared (the collector never manages to construct the local variant,
see `collect` below). -/
inductive RequestedVersion
  | RequestedLocalVersion (name path : String) (initializer : Option ManifestInitializer)
  | RequestedRemoteVersion (name : String) (git_repo : GitRepoData)
      (version_range : DottedVersionRange)
deriving DecidableEq

def RequestedVersion.name : RequestedVersion → String
  | .RequestedLocalVersion n _ _ => n
  | .RequestedRemoteVersion n _ _ => n

/-- The payload of a remote request; `none` for a local request. -/
def RequestedVersion.remoteInfo : RequestedVersion →
    Option (GitRepoData × DottedVersionRange)
  | .RequestedLocalVersion _ _ _ => none
  | .RequestedRemoteVersion _ repo r => some (repo, r)

/-- Embeds `ResolvedLocalDependency` / `ResolvedRemoteDependency`. -/
inductive ResolvedDependency
  | ResolvedLocalDependency (name path : String) (initializer : Option ManifestInitializer)
  | ResolvedRemoteDependency (name url revision : String)
      (initializer : Option ManifestInitializer) (version : DottedVersion)
deriving DecidableEq

/-- Insertion of a version into an ascending list, comparing with
`__lt__` exactly as Python's stable `list.sort()` orders elements. -/
def insertAscending (v : DottedVersion) : List DottedVersion → List DottedVersion
  | [] => [v]
  | w :: ws => if w.lt v then w :: insertAscending v ws else v :: w :: ws

/-- Embeds `git_versions.sort()`: the ascending sort of the tag list (insertion
sort here; any stable comparison sort computes the same ascending order,
and the tag lists are duplicate-free dict keys). -/
def sortVersions : List DottedVersion → List DottedVersion
  | [] => []
  | v :: vs => insertAscending v (sortVersions vs)

theorem DottedVersion.le_refl (a : DottedVersion) : a.le a = true := by
  simp [DottedVersion.le, DottedVersion.gt, vgt_irrefl]

theorem vle_of_vlt {a b : DottedVersion} (h : a.lt b = true) : a.le b = true := by
  simp only [DottedVersion.lt, Bool.and_eq_true] at h
  simp [DottedVersion.le, h.1]

theorem vle_of_not_vlt {a b : DottedVersion} (h : b.lt a = false) : a.le b = true := by
  rcases (lt_false_iff b a).mp h with hg | he
  · simp [DottedVersion.le, DottedVersion.gt_asymm hg]
  · rw [he]
    exact DottedVersion.le_refl a

theorem mem_insertAscending {w v : DottedVersion} :
    ∀ {l : List DottedVersion}, w ∈ insertAscending v l ↔ (w = v ∨ w ∈ l) := by
  intro l
  induction l with
  | nil =>
    show w ∈ [v] ↔ _
    simp
  | cons x xs ih =>
    by_cases h : x.lt v = true
    · rw [insertAscending, if_pos h]
      rw [List.mem_cons, List.mem_cons, ih]
      tauto
    · rw [insertAscending, if_neg h]
      rw [List.mem_cons, List.mem_cons]

theorem mem_sortVersions {w : DottedVersion} :
    ∀ {l : List DottedVersion}, w ∈ sortVersions l ↔ w ∈ l := by
  intro l
  induction l with
  | nil => simp [sortVersions]
  | cons x xs ih =>
    rw [sortVersions, mem_insertAscending, List.mem_cons, ih]

theorem pairwise_insertAscending {v : DottedVersion} :
    ∀ {l : List DottedVersion}, l.Pairwise (fun a b => a.le b = true) →
      (insertAscending v l).Pairwise (fun a b => a.le b = true) := by
  intro l
  induction l with
  | nil =>
    intro _
    show ([v]).Pairwise _
    simp
  | cons x xs ih =>
    intro hp
    rw [List.pairwise_cons] at hp
    by_cases h : x.lt v = true
    · rw [insertAscending, if_pos h, List.pairwise_cons]
      refine ⟨?_, ih hp.2⟩
      intro w hw
      rcases mem_insertAscending.mp hw with rfl | hw2
      · exact vle_of_vlt h
      · exact hp.1 w hw2
    · rw [insertAscending, if_neg h, List.pairwise_cons]
      refine ⟨?_, List.pairwise_cons.mpr hp⟩
      intro w hw
      rcases List.mem_cons.mp hw with rfl | hw2
      · exact vle_of_not_vlt (by simpa using h)
      · exact DottedVersion.le_trans (vle_of_not_vlt (by simpa using h)) (hp.1 w hw2)

theorem pairwise_sortVersions :
    ∀ (l : List DottedVersion), (sortVersions l).Pairwise (fun a b => a.le b = true)
  | [] => List.Pairwise.nil
  | v :: vs => pairwise_insertAscending (pairwise_sortVersions vs)

/-- The first element `find?` returns from an ascending list is minimal
among all elements satisfying the predicate. -/
theorem find_first_le {p : DottedVersion → Bool} :
    ∀ {l : List DottedVersion} {v : DottedVersion},
      l.Pairwise (fun a b => a.le b = true) → l.find? p = some v →
      ∀ w ∈ l, p w = true → v.le w = true := by
  intro l
  induction l with
  | nil =>
    intro v _ hf
    simp [List.find?] at hf
  | cons x xs ih =>
    intro v hp hf w hw hpw
    rw [List.pairwise_cons] at hp
    cases hpx : p x with
    | true =>
      rw [List.find?_cons, hpx] at hf
      have hv : x = v := by simpa using hf
      subst hv
      rcases List.mem_cons.mp hw with rfl | hw2
      · exact DottedVersion.le_refl w
      · exact hp.1 w hw2
    | false =>
      rw [List.find?_cons, hpx] at hf
      rcases List.mem_cons.mp hw with rfl | hw2
      · rw [hpw] at hpx
        exact absurd hpx (by simp)
      · exact ih hp.2 hf w hw2 hpw

/-- The body of the per-name loop of `DependencyResolver.resolve`.

If any entry is a `RequestedLocalVersion`, the code takes the local branch
and immediately evaluates `version.local_repo.path` - but the
`RequestedLocalVersion` class stores `(name, path, initializer)` and has
no `local_repo` attribute, so Python raises AttributeError.

Otherwise every entry is remote: collect `[x.version_range for x in
requested_versions]` (Python's `intersect(*[])` on an empty list raises
TypeError), intersect them, sort the first request's repository tag list
ascending, and select the first (lowest) tag the intersection contains.
When no tag qualifies, `resolved_version` stays None and
`revisionForVersion(None)` raises KeyError on the revisions dict. -/
def resolveOne (dep_name : String) (requested_versions : List RequestedVersion) :
    Except PyErr ResolvedDependency :=
  match requested_versions.mapM RequestedVersion.remoteInfo with
  | none => .error (.attributeError
      "RequestedLocalVersion instance has no attribute local_repo")
  | some [] => .error (.typeError "intersect() takes at least 1 argument (0 given)")
  | some ((repo0, r0) :: rest) =>
    let intersection := DottedVersionRange.intersect r0 (rest.map Prod.snd)
    let git_versions := sortVersions repo0.versions
    match git_versions.find? fun version => intersection.contains version with
    | none => .error .keyError
    | some resolved_version =>
      match repo0.revisionForVersion resolved_version,
            repo0.manifestAtVersion resolved_version with
      | .ok rev, .ok mft =>
        .ok (.ResolvedRemoteDependency dep_name repo0.url rev mft.initializer
          resolved_version)
      | .error e, _ => .error e
      | _, .error e => .error e

/-- Embeds `DependencyResolver.resolve`: resolve every name of the collected
mapping (modelled as the dict's items) independently. -/
def DependencyResolver.resolve (deps : List (String × List RequestedVersion)) :
    Except PyErr (List ResolvedDependency) :=
  deps.mapM fun nv => resolveOne nv.1 nv.2

/-- Append a request under its name, as
`self._dependencies[name].append(...)` behaves on a `defaultdict(list)`
(new names enter at the end, existing names append to their list). -/
def addRequest : List (String × List RequestedVersion) → String → RequestedVersion →
    List (String × List RequestedVersion)
  | [], n, r => [(n, [r])]
  | (k, rs) :: rest, n, r =>
    if k = n then (k, rs ++ [r]) :: rest else (k, rs) :: addRequest rest n r

/-- The request list recorded under a name (`defaultdict`: absent names
read as the empty list). -/
def lookupReqs (m : List (String × List RequestedVersion)) (n : String) :
    List RequestedVersion :=
  (alookup n m).getD []

/-- Processing of a single declaration inside the `collect` loop.  A local
declaration loads the local manifest and then crashes: the call
`RequestedLocalVersion(name=..., local_repo=local_repo)` passes a keyword
that the class's `__init__(self, name, path, initializer)` does not
accept, so Python raises TypeError.  A remote declaration obtains the
(per-URL cached) repository - an unknown URL is a failing `git clone`,
CalledProcessError - fetches the manifest at the *range's lower bound*,
and yields the request keyed by the *fetched manifest's name*, carrying
the original range, together with that manifest's own declarations. -/
def processDep (world : List (String × GitRepoData)) :
    ManifestDependency → Except PyErr (RequestedVersion × List ManifestDependency)
  | .ManifestLocalDependency _ =>
    .error (.typeError "__init__() got an unexpected keyword argument local_repo")
  | .ManifestRemoteDependency url r =>
    match alookup url world with
    | none => .error .calledProcessError
    | some git_repo =>
      match git_repo.manifestAtVersion r.lower_bound with
      | .error e => .error e
      | .ok dep_manifest =>
        .ok (.RequestedRemoteVersion dep_manifest.name git_repo r,
          dep_manifest.dependencies)

/-- The `for dep in deps` loop of one `collect` call: process every
declaration of the current list, appending each request to the mapping
and extending the shared `transitive_deps` accumulator. -/
def collectLevel (world : List (String × GitRepoData)) :
    List ManifestDependency → List (String × List RequestedVersion) →
    List ManifestDependency →
    Except PyErr (List (String × List RequestedVersion) × List ManifestDependency)
  | [], m, acc => .ok (m, acc)
  | d :: ds, m, acc =>
    match processDep world d with
    | .error e => .error e
    | .ok (rv, tds) => collectLevel world ds (addRequest m rv.name rv) (acc ++ tds)

/-- Embeds `DependencyGraphCollector.collect`.  NOTE the traversal order: the
Python processes *all* declarations of the current list, extending one
shared `transitive_deps`, and only then recurses once on that
concatenation - a level-order (breadth-first) walk, not a per-declaration
depth-first recursion.  `fuel` models Python's recursion limit (a
RuntimeError once exceeded; the source has no cycle detection). -/
def DependencyGraphCollector.collect (world : List (String × GitRepoData)) :
    Nat → List ManifestDependency → List (String × List RequestedVersion) →
    Except PyErr (List (String × List RequestedVersion))
  | 0, _, _ => .error .recursionError
  | fuel + 1, deps, m =>
    if deps.isEmpty then .ok m
    else
      match collectLevel world deps m [] with
      | .error e => .error e
      | .ok (m2, transitive) =>
        if transitive.isEmpty then .ok m2
        else DependencyGraphCollector.collect world fuel transitive m2

/-- Specification-side restatement of one level: the requests recorded by
the loop, in recording order, next to the concatenated transitive
declarations. -/
def levelSeqStep (world : List (String × GitRepoData)) :
    List ManifestDependency →
    Except PyErr (List RequestedVersion × List ManifestDependency)
  | [] => .ok ([], [])
  | d :: ds =>
    match processDep world d with
    | .error e => .error e
    | .ok (rv, tds) =>
      match levelSeqStep world ds with
      | .error e => .error e
      | .ok (rvs, transitive) => .ok (rv :: rvs, tds ++ transitive)

/-- Specification-side level-order traversal sequence: all requests of the
current level, then, recursively, all requests of the next level. -/
def levelOrderSeq (world : List (String × GitRepoData)) :
    Nat → List ManifestDependency → Except PyErr (List RequestedVersion)
  | 0, _ => .error .recursionError
  | fuel + 1, deps =>
    if deps.isEmpty then .ok []
    else
      match levelSeqStep world deps with
      | .error e => .error e
      | .ok (rvs, transitive) =>
        if transitive.isEmpty then .ok rvs
        else
          match levelOrderSeq world fuel transitive with
          | .error e => .error e
          | .ok rest => .ok (rvs ++ rest)

theorem lookupReqs_cons (k : String) (rs : List RequestedVersion)
    (rest : List (String × List RequestedVersion)) (n2 : String) :
    lookupReqs ((k, rs) :: rest) n2 = if k = n2 then rs else lookupReqs rest n2 := by
  by_cases h : k = n2 <;> simp [lookupReqs, alookup, h]

theorem lookupReqs_addRequest (n n2 : String) (r : RequestedVersion) :
    ∀ m, lookupReqs (addRequest m n r) n2
      = if n2 = n then lookupReqs m n ++ [r] else lookupReqs m n2
  | [] => by
    by_cases h : n2 = n
    · subst h
      simp [addRequest, lookupReqs_cons, lookupReqs, alookup]
    · rw [if_neg h]
      show lookupReqs [(n, [r])] n2 = lookupReqs [] n2
      rw [lookupReqs_cons, if_neg (fun hh => h hh.symm)]
  | (k, rs) :: rest => by
    by_cases hk : k = n
    · subst hk
      show lookupReqs (if k = k then (k, rs ++ [r]) :: rest
          else (k, rs) :: addRequest rest k r) n2 = _
      rw [if_pos rfl]
      by_cases h : n2 = k
      · subst h
        rw [if_pos rfl, lookupReqs_cons, lookupReqs_cons, if_pos rfl, if_pos rfl]
      · rw [if_neg h, lookupReqs_cons, lookupReqs_cons,
          if_neg (fun hh => h hh.symm), if_neg (fun hh => h hh.symm)]
    · show lookupReqs (if k = n then (k, rs ++ [r]) :: rest
          else (k, rs) :: addRequest rest n r) n2 = _
      rw [if_neg hk]
      by_cases h : n2 = k
      · subst h
        rw [lookupReqs_cons, if_pos rfl, if_neg hk, lookupReqs_cons, if_pos rfl]
      · rw [lookupReqs_cons, if_neg (fun hh => h hh.symm),
          lookupReqs_addRequest n n2 r rest]
        by_cases h2 : n2 = n
        · rw [if_pos h2, if_pos h2, lookupReqs_cons, if_neg hk]
        · rw [if_neg h2, if_neg h2, lookupReqs_cons, if_neg (fun hh => h hh.symm)]

theorem collectLevel_spec (world : List (String × GitRepoData)) :
    ∀ (ds : List ManifestDependency) (m : List (String × List RequestedVersion))
      (acc : List ManifestDependency) m2 tr,
      collectLevel world ds m acc = .ok (m2, tr) →
      ∃ rvs tds, levelSeqStep world ds = .ok (rvs, tds) ∧ tr = acc ++ tds ∧
        ∀ n, lookupReqs m2 n
          = lookupReqs m n ++ (rvs.filter fun rv => decide (rv.name = n)) := by
  intro ds
  induction ds with
  | nil =>
    intro m acc m2 tr h
    simp only [collectLevel] at h
    have hpair : (m, acc) = (m2, tr) := by simpa using h
    obtain ⟨hm, ht⟩ := Prod.ext_iff.mp hpair
    subst hm
    subst ht
    exact ⟨[], [], rfl, by simp, fun n => by simp [List.filter]⟩
  | cons d ds ih =>
    intro m acc m2 tr h
    simp only [collectLevel] at h
    cases hpd : processDep world d with
    | error e => rw [hpd] at h; exact absurd h (by simp)
    | ok rvtds =>
      obtain ⟨rv, tds0⟩ := rvtds
      rw [hpd] at h
      obtain ⟨rvs1, tds1, hseq, htr, hlook⟩ :=
        ih (addRequest m rv.name rv) (acc ++ tds0) m2 tr h
      refine ⟨rv :: rvs1, tds0 ++ tds1, ?_, ?_, ?_⟩
      · simp [levelSeqStep, hpd, hseq]
      · rw [htr, List.append_assoc]
      · intro n
        rw [hlook n, lookupReqs_addRequest rv.name n rv m]
        by_cases hn : rv.name = n
        · rw [if_pos hn.symm, List.filter_cons, if_pos (by simp [hn])]
          simp [hn]
        · rw [if_neg (fun hh => hn hh.symm), List.filter_cons,
            if_neg (by simp [hn])]

theorem collect_refines_levelOrder (world : List (String × GitRepoData)) :
    ∀ (fuel : Nat) (deps : List ManifestDependency)
      (m : List (String × List RequestedVersion)) m2,
      DependencyGraphCollector.collect world fuel deps m = .ok m2 →
      ∃ seq, levelOrderSeq world fuel deps = .ok seq ∧
        ∀ n, lookupReqs m2 n
          = lookupReqs m n ++ (seq.filter fun rv => decide (rv.name = n)) := by
  intro fuel
  induction fuel with
  | zero =>
    intro deps m m2 h
    exact absurd h (by simp [DependencyGraphCollector.collect])
  | succ fuel ih =>
    intro deps m m2 h
    simp only [DependencyGraphCollector.collect] at h
    by_cases hemp : deps.isEmpty
    · rw [if_pos hemp] at h
      have hm : m = m2 := by simpa using h
      subst hm
      refine ⟨[], ?_, fun n => by simp [List.filter]⟩
      simp [levelOrderSeq, hemp]
    · rw [if_neg hemp] at h
      cases hcl : collectLevel world deps m [] with
      | error e => rw [hcl] at h; exact absurd h (by simp)
      | ok p =>
        obtain ⟨m1, tr⟩ := p
        simp only [hcl] at h
        obtain ⟨rvs, tds, hseq, htr, hlook⟩ :=
          collectLevel_spec world deps m [] m1 tr hcl
        have htds : tr = tds := by simpa using htr
        subst htds
        by_cases htremp : tr.isEmpty
        · rw [if_pos htremp] at h
          have hm : m1 = m2 := by simpa using h
          subst hm
          refine ⟨rvs, ?_, hlook⟩
          simp [levelOrderSeq, hemp, hseq, htremp]
        · rw [if_neg htremp] at h
          obtain ⟨seq2, hseq2, hlook2⟩ := ih tr m1 m2 h
          refine ⟨rvs ++ seq2, ?_, ?_⟩
          · simp [levelOrderSeq, hemp, hseq, htremp, hseq2]
          · intro n
            rw [hlook2 n, hlook n, List.filter_append, List.append_assoc]

/-- Shorthand for versions with plain numeric components, used by the
concrete examples below. -/
def mkv (l : List Nat) : DottedVersion :=
  ⟨stripTrailingZeros (l.map fun n => ⟨n, none, none⟩)⟩

def c8RepoD : GitRepoData :=
  ⟨"git://D", [(mkv [1], "d10"), (mkv [1, 5], "d15")],
    [(mkv [1], ⟨"D", [], none⟩), (mkv [1, 5], ⟨"D", [], none⟩)]⟩

def c8RepoA : GitRepoData :=
  ⟨"git://A", [(mkv [1], "a10")],
    [(mkv [1], ⟨"A",
      [.ManifestRemoteDependency "git://D" ⟨mkv [1], mkv [2], false⟩], none⟩)]⟩

def c8World : List (String × GitRepoData) :=
  [("git://A", c8RepoA), ("git://D", c8RepoD)]

/-- Root declarations: A with range [1, 2), and D directly with range
[1.5, 3); A's manifest declares D with range [1, 2). -/
def c8RootDeps : List ManifestDependency :=
  [.ManifestRemoteDependency "git://A" ⟨mkv [1], mkv [2], false⟩,
   .ManifestRemoteDependency "git://D" ⟨mkv [1, 5], mkv [3], false⟩]

def c8ExpectedMap : List (String × List RequestedVersion) :=
  [("A", [.RequestedRemoteVersion "A" c8RepoA ⟨mkv [1], mkv [2], false⟩]),
   ("D", [.RequestedRemoteVersion "D" c8RepoD ⟨mkv [1, 5], mkv [3], false⟩,
          .RequestedRemoteVersion "D" c8RepoD ⟨mkv [1], mkv [2], false⟩])]

/-- C8 counterexample: with the root declaring [A@[1,2), D@[1.5,3)] and
A's manifest declaring D@[1,2), a depth-first traversal (recursing into
A's manifest before the next root sibling) would record D's requests as
[[1,2), [1.5,3)], but the code's collection records them in level order:
the root-level request [1.5,3) first, A's transitive request [1,2)
second.  The two requests are distinct, so the recorded order is not the
depth-first discovery order. -/
theorem C8_counterexample_level_order :
    DependencyGraphCollector.collect c8World 5 c8RootDeps [] = .ok c8ExpectedMap ∧
    lookupReqs c8ExpectedMap "D"
      = [.RequestedRemoteVersion "D" c8RepoD ⟨mkv [1, 5], mkv [3], false⟩,
         .RequestedRemoteVersion "D" c8RepoD ⟨mkv [1], mkv [2], false⟩] ∧
    (RequestedVersion.RequestedRemoteVersion "D" c8RepoD ⟨mkv [1, 5], mkv [3], false⟩)
      ≠ .RequestedRemoteVersion "D" c8RepoD ⟨mkv [1], mkv [2], false⟩ :=
  ⟨by decide, by decide, by decide⟩

/-- C8 (amended): graph collection is a *level-order* (breadth-first)
recursion: each pass records, for every remote declaration of the current
level, one request keyed by the name of the manifest fetched at the
declaration's range's lower bound and carrying the original range, and
then recurses once into the concatenation of all fetched manifests'
declaration lists; hence each per-name request list is exactly that
name's subsequence of the level-order traversal sequence (insertion
order = level-order traversal order). -/
theorem C8_collect_breadth_first (world : List (String × GitRepoData)) (fuel : Nat)
    (deps : List ManifestDependency) (m2 : List (String × List RequestedVersion))
    (hok : DependencyGraphCollector.collect world fuel deps [] = .ok m2) :
    ∃ seq, levelOrderSeq world fuel deps = .ok seq ∧
      ∀ n, lookupReqs m2 n = seq.filter fun rv => decide (rv.name = n) := by
  obtain ⟨seq, h1, h2⟩ := collect_refines_levelOrder world fuel deps [] m2 hok
  refine ⟨seq, h1, fun n => ?_⟩
  simpa [lookupReqs, alookup] using h2 n

theorem C8_witness :
    ∃ seq, levelOrderSeq c8World 5 c8RootDeps = .ok seq ∧
      ∀ n, lookupReqs c8ExpectedMap n = seq.filter fun rv => decide (rv.name = n) :=
  C8_collect_breadth_first c8World 5 c8RootDeps c8ExpectedMap (by decide)

/-- C3: no local request ever becomes a `ResolvedLocalDependency`; the
pipeline crashes first.  Collecting a root manifest's local declaration
raises TypeError, because `collect` constructs `RequestedLocalVersion`
with the keyword argument `local_repo` that the class's
`__init__(self, name, path, initializer)` does not accept.  And even for
a hand-built `RequestedLocalVersion`, `resolve`'s local branch reads
`version.local_repo.path`, an attribute the class does not have, raising
AttributeError. -/
theorem C3_local_dependency_crashes :
    DependencyGraphCollector.collect c8World 5 [.ManifestLocalDependency "../dep"] []
      = .error (.typeError "__init__() got an unexpected keyword argument local_repo") ∧
    resolveOne "d" [.RequestedLocalVersion "d" "../dep" none]
      = .error (.attributeError
          "RequestedLocalVersion instance has no attribute local_repo") ∧
    DependencyResolver.resolve [("d", [.RequestedLocalVersion "d" "../dep" none])]
      = .error (.attributeError
          "RequestedLocalVersion instance has no attribute local_repo") :=
  ⟨by decide, rfl, rfl⟩

def c2Repo : GitRepoData := ⟨"git://d", [(mkv [1], "r1"), (mkv [3, 5], "r35")], []⟩

/-- C2: for requests [1,2) and [3,4) on the same name the computed
intersection is [3,2) and no tag satisfies it; the loop then leaves
`resolved_version = None` and the subsequent
`revisionForVersion(None)` lookup raises a bare KeyError.  No
ResolutionError class exists in the program and the error carries neither
the dependency name nor the intersection bounds; the code does, however,
never silently pick an out-of-range version (tags 1.0 and 3.5 are
rejected). -/
theorem C2_empty_intersection_raises_keyerror :
    resolveOne "d"
      [.RequestedRemoteVersion "d" c2Repo ⟨mkv [1], mkv [2], false⟩,
       .RequestedRemoteVersion "d" c2Repo ⟨mkv [3], mkv [4], false⟩]
      = .error .keyError ∧
    DependencyResolver.resolve
      [("d", [.RequestedRemoteVersion "d" c2Repo ⟨mkv [1], mkv [2], false⟩,
              .RequestedRemoteVersion "d" c2Repo ⟨mkv [3], mkv [4], false⟩])]
      = .error .keyError :=
  ⟨by decide, by decide⟩

/-- The diamond example's shared repository: tags 1.0, 1.4, 1.5, 1.9,
2.0, 2.5 (listed unsorted - dict key order is arbitrary - so the
resolver's sort is exercised), with D's manifest at the 1.5 tag. -/
def diamondRepo : GitRepoData :=
  ⟨"git://D",
    [(mkv [2], "r20"), (mkv [1], "r10"), (mkv [2, 5], "r25"),
     (mkv [1, 5], "r15"), (mkv [1, 4], "r14"), (mkv [1, 9], "r19")],
    [(mkv [1, 5], ⟨"D", [], none⟩)]⟩

/-- Two remote requests for D, reaching it via ranges [1.0, 2.0) and
[1.5, 3.0). -/
def diamondRequests : List RequestedVersion :=
  [.RequestedRemoteVersion "D" diamondRepo ⟨mkv [1], mkv [2], false⟩,
   .RequestedRemoteVersion "D" diamondRepo ⟨mkv [1, 5], mkv [3], false⟩]

/-- C1: for a name whose recorded requests are all remote, a successful
resolution intersects all their ranges and selects, from the first
request's repository, a tagged version contained in the intersection that
is minimal (no satisfying tag compares below it) - i.e. the first hit of
an ascending scan of the sorted tag list; in the diamond case with ranges
[1.0, 2.0) and [1.5, 3.0) over tags {1.0, 1.4, 1.5, 1.9, 2.0, 2.5} the
selected version is 1.5. -/
theorem C1_lowest_tag_in_intersection (dep_name : String)
    (requested_versions : List RequestedVersion) (repo0 : GitRepoData)
    (r0 : DottedVersionRange) (rest : List (GitRepoData × DottedVersionRange))
    (d : ResolvedDependency)
    (hremote : requested_versions.mapM RequestedVersion.remoteInfo
      = some ((repo0, r0) :: rest))
    (hok : resolveOne dep_name requested_versions = .ok d) :
    (∃ v rev mft,
      repo0.revisionForVersion v = .ok rev ∧
      repo0.manifestAtVersion v = .ok mft ∧
      d = .ResolvedRemoteDependency dep_name repo0.url rev mft.initializer v ∧
      v ∈ repo0.versions ∧
      (DottedVersionRange.intersect r0 (rest.map Prod.snd)).contains v = true ∧
      ∀ w ∈ repo0.versions,
        (DottedVersionRange.intersect r0 (rest.map Prod.snd)).contains w = true →
          v.le w = true) ∧
    resolveOne "D" diamondRequests
      = .ok (.ResolvedRemoteDependency "D" "git://D" "r15" none (mkv [1, 5])) := by
  refine ⟨?_, by decide⟩
  unfold resolveOne at hok
  simp only [hremote] at hok
  split at hok
  · exact absurd hok (by simp)
  · rename_i resolved_version hfv
    split at hok
    · rename_i rev mft hrev hmft
      refine ⟨resolved_version, rev, mft, hrev, hmft, ?_, ?_, ?_, ?_⟩
      · simpa using hok.symm
      · exact mem_sortVersions.mp (List.mem_of_find?_eq_some hfv)
      · exact List.find?_some hfv
      · intro w hw hcw
        exact find_first_le (pairwise_sortVersions repo0.versions) hfv w
          (mem_sortVersions.mpr hw) hcw
    · exact absurd hok (by simp)
    · exact absurd hok (by simp)

theorem C1_witness :
    (∃ v rev mft,
      diamondRepo.revisionForVersion v = .ok rev ∧
      diamondRepo.manifestAtVersion v = .ok mft ∧
      (ResolvedDependency.ResolvedRemoteDependency "D" "git://D" "r15" none (mkv [1, 5]))
        = .ResolvedRemoteDependency "D" diamondRepo.url rev mft.initializer v ∧
      v ∈ diamondRepo.versions ∧
      (DottedVersionRange.intersect ⟨mkv [1], mkv [2], false⟩
        [⟨mkv [1, 5], mkv [3], false⟩]).contains v = true ∧
      ∀ w ∈ diamondRepo.versions,
        (DottedVersionRange.intersect ⟨mkv [1], mkv [2], false⟩
          [⟨mkv [1, 5], mkv [3], false⟩]).contains w = true →
          v.le w = true) ∧
    resolveOne "D" diamondRequests
      = .ok (.ResolvedRemoteDependency "D" "git://D" "r15" none (mkv [1, 5])) :=
  C1_lowest_tag_in_intersection "D" diamondRequests diamondRepo
    ⟨mkv [1], mkv [2], false⟩ [(diamondRepo, ⟨mkv [1, 5], mkv [3], false⟩)]
    (.ResolvedRemoteDependency "D" "git://D" "r15" none (mkv [1, 5]))
    (by decide) (by decide)

theorem C5_witness :
    (DottedVersion.mk (stripTrailingZeros [⟨1, none, none⟩, ZERO_COMPONENT])
      = DottedVersion.mk (stripTrailingZeros [⟨1, none, none⟩])) :=
  (C5_structural_eq_iff_semantic_eq.1 [⟨1, none, none⟩, ZERO_COMPONENT]
    [⟨1, none, none⟩]).mpr (by decide)
